import Mathlib

/-!
Mahjong simulator (`maja_t.cpp`): embedding and verified properties.

The C++ program is embedded shallowly:

* `std::vector<T>` is `List T` (`back` is the last element, `push_back` appends);
* `int` ranks are mathematical integers; the legal ranks are tiny and the only
  arithmetic on them is `rank + 1` and `rank + 2`;
* an indexed access `v[i]` is `v[i]?` inside `Option`, so that an out-of-range
  access makes the whole computation `none`;
* the recursion of `canFormMeldSets` is driven by an explicit fuel argument,
  `none` being returned when it runs dry;
* console output is dropped, and `exit(0)` is an explicit outcome.
-/

namespace Mahjong

/-! ## Tiles -/

/-- The tile families `enum class Suit`, in the order of the enumeration. -/
inductive Suit where
  | CHARACTER
  | BAMBOO
  | DOT
  | WIND
  | DRAGON
deriving DecidableEq

/-- The integer behind a suit: `static_cast<int>(suit)`. -/
def Suit.toInt : Suit → Int
  | .CHARACTER => 0
  | .BAMBOO => 1
  | .DOT => 2
  | .WIND => 3
  | .DRAGON => 4

/-- The suit behind an integer: `static_cast<Suit>(s)`. -/
def Suit.fromNat : Nat → Suit
  | 0 => .CHARACTER
  | 1 => .BAMBOO
  | 2 => .DOT
  | 3 => .WIND
  | _ => .DRAGON

/-- A tile, `class MahjongTile`: a suit and a rank. -/
structure MahjongTile where
  suit : Suit
  rank : Int
deriving DecidableEq

/-- Equality of tiles, `MahjongTile::operator==`. -/
def MahjongTile.eq (a b : MahjongTile) : Bool :=
  decide (a.suit = b.suit) && decide (a.rank = b.rank)

/-- Strict tile order, `MahjongTile::operator<`: by suit, then by rank. -/
def MahjongTile.lt (a b : MahjongTile) : Bool :=
  if a.suit ≠ b.suit then decide (a.suit.toInt < b.suit.toInt)
  else decide (a.rank < b.rank)

/-- The non-strict order that `std::sort` establishes: `a` may stand before `b`
when `b < a` does not hold. -/
def MahjongTile.le (a b : MahjongTile) : Prop :=
  b.lt a = false

instance MahjongTile.decidableLe : DecidableRel MahjongTile.le :=
  fun a b => inferInstanceAs (Decidable (b.lt a = false))

/-- The call `sort(v.begin(), v.end())` on a vector of tiles. Tiles that the
order does not separate are equal, so the sorted vector is unique whatever
algorithm the library runs; insertion sort computes it. -/
def sortTiles (v : List MahjongTile) : List MahjongTile :=
  List.insertionSort MahjongTile.le v

/-- A tile is legal when its rank lies in the range of its suit: `0..8` for the
three numbered suits, `0..3` for winds, `0..2` for dragons. -/
def MahjongTile.legal (t : MahjongTile) : Prop :=
  0 ≤ t.rank ∧ t.rank ≤ (match t.suit with
    | .WIND => 3
    | .DRAGON => 2
    | _ => 8)

instance MahjongTile.decidableLegal (t : MahjongTile) : Decidable t.legal :=
  inferInstanceAs (Decidable (_ ∧ _))

/-- The numbered suits, the ones in which runs exist. -/
def Suit.numbered (s : Suit) : Prop :=
  s ≠ .WIND ∧ s ≠ .DRAGON

instance Suit.decidableNumbered (s : Suit) : Decidable s.numbered :=
  inferInstanceAs (Decidable (_ ∧ _))

/-! ## The completion evaluator -/

/-- The marker `{Suit::CHARACTER, -1}` that the source assigns to `next1` and
`next2` once their tile has been removed (also the initial `lastDrawnTile`). -/
def invalidTile : MahjongTile :=
  ⟨.CHARACTER, -1⟩

/-- The removal loop of the run branch of `canFormMeldSets`, over the remaining
tiles of the range-for: `first` is `tiles[0]`, and the state is
`removedFirst`, `next1`, `next2`. -/
def removeRun (first : MahjongTile) :
    Bool → MahjongTile → MahjongTile → List MahjongTile → List MahjongTile
  | _, _, _, [] => []
  | removedFirst, next1, next2, tile :: rest =>
    if !removedFirst && tile.eq first then
      removeRun first true next1 next2 rest
    else if tile.eq next1 then
      removeRun first removedFirst invalidTile next2 rest
    else if tile.eq next2 then
      removeRun first removedFirst next1 invalidTile rest
    else
      tile :: removeRun first removedFirst next1 next2 rest

/-- The triplet branch of `canFormMeldSets` up to its recursive call: the tiles
handed to the recursion, when the branch applies. `none` is an out-of-range
access. -/
def tripletRest (tiles : List MahjongTile) : Option (Option (List MahjongTile)) :=
  if 3 ≤ tiles.length then do
    let t0 ← tiles[0]?
    let t1 ← tiles[1]?
    let t2 ← tiles[2]?
    if t0.eq t1 && t1.eq t2 then
      pure (some (tiles.drop 3))
    else
      pure none
  else
    pure none

/-- The run branch of `canFormMeldSets` up to its recursive call: the tiles
handed to the recursion, when the branch applies. -/
def runRest (tiles : List MahjongTile) : Option (Option (List MahjongTile)) := do
  let t0 ← tiles[0]?
  if t0.suit ≠ .WIND ∧ t0.suit ≠ .DRAGON then
    let next1 : MahjongTile := ⟨t0.suit, t0.rank + 1⟩
    let next2 : MahjongTile := ⟨t0.suit, t0.rank + 2⟩
    if tiles.any (fun t => t.eq next1) && tiles.any (fun t => t.eq next2) then
      pure (some (removeRun t0 false next1 next2 tiles))
    else
      pure none
  else
    pure none

/-- The function `MahjongGame::canFormMeldSets` with a bound on the depth of its
recursion. `none` means that the bound was reached or that an index was out of
range. -/
def canFormMeldSetsFuel : Nat → List MahjongTile → Option Bool
  | 0, tiles => if tiles.isEmpty then some true else none
  | fuel + 1, tiles =>
    if tiles.isEmpty then some true
    else
      let sorted := sortTiles tiles
      do
        let viaTriplet ←
          match ← tripletRest sorted with
          | some newTiles => canFormMeldSetsFuel fuel newTiles
          | none => pure false
        if viaTriplet then
          pure true
        else
          match ← runRest sorted with
          | some newTiles => canFormMeldSetsFuel fuel newTiles
          | none => pure false

/-- The function `MahjongGame::canFormMeldSets`: every recursive call is on a
shorter vector, so the length of the argument bounds the depth. -/
def canFormMeldSets (tiles : List MahjongTile) : Option Bool :=
  canFormMeldSetsFuel tiles.length tiles

/-- The inner loop of `canWin` from position `j` on: the hand without the
positions `i` and `i + 1`. -/
def removePairAt (i : Nat) : Nat → List MahjongTile → List MahjongTile
  | _, [] => []
  | j, t :: ts =>
    if j ≠ i ∧ j ≠ i + 1 then t :: removePairAt i (j + 1) ts
    else removePairAt i (j + 1) ts

/-- The outer loop of `canWin`: `n` iterations are left and the loop counter
is `i`. -/
def canWinLoop (hand : List MahjongTile) : Nat → Nat → Option Bool
  | 0, _ => some false
  | n + 1, i => do
    let a ← hand[i]?
    let b ← hand[i + 1]?
    let found ←
      if a.eq b then canFormMeldSets (removePairAt i 0 hand)
      else pure false
    if found then pure true else canWinLoop hand n (i + 1)

/-- The function `MahjongGame::canWin`. -/
def canWin (hand : List MahjongTile) : Option Bool :=
  if hand.length ≠ 14 then some false
  else canWinLoop hand (hand.length - 1) 0

/-! ## Players and the game state -/

/-- A player, `class Player`: an identifier, the hand and the discard record. -/
structure Player where
  id : Int
  hand : List MahjongTile
  discarded : List MahjongTile
deriving DecidableEq

/-- The method `Player::drawTile`: append the tile, then sort the hand. -/
def Player.drawTile (p : Player) (tile : MahjongTile) : Player :=
  { p with hand := sortTiles (p.hand ++ [tile]) }

/-- The method `Player::discardTile`: the tile at `index` leaves the hand and
is appended to the discard record; `none` when `index` is out of range. -/
def Player.discardTile (p : Player) (index : Nat) : Option (MahjongTile × Player) := do
  let discardedTile ← p.hand[index]?
  pure (discardedTile,
    { p with hand := p.hand.eraseIdx index, discarded := p.discarded ++ [discardedTile] })

/-- The state of `class MahjongGame`. -/
structure MahjongGame where
  wall : List MahjongTile
  players : List Player
  currentPlayer : Nat
  lastDrawnTile : MahjongTile
deriving DecidableEq

/-- The innermost loops of `initializeTiles`: four `push_back` of one tile. -/
def pushFour (wall : List MahjongTile) (tile : MahjongTile) : List MahjongTile :=
  (List.range 4).foldl (fun w _ => w ++ [tile]) wall

/-- The method `MahjongGame::initializeTiles`, as a function of the wall it
appends to. -/
def initializeTiles (wall : List MahjongTile) : List MahjongTile :=
  let numbered := (List.range 3).foldl
    (fun w (s : Nat) =>
      (List.range 9).foldl (fun w (r : Nat) => pushFour w ⟨Suit.fromNat s, (r : Int)⟩) w) wall
  let winds := (List.range 4).foldl (fun w (r : Nat) => pushFour w ⟨.WIND, (r : Int)⟩) numbered
  (List.range 3).foldl (fun w (r : Nat) => pushFour w ⟨.DRAGON, (r : Int)⟩) winds

/-- The body of the loops of `dealTiles`: player `p` draws `wall.back()`, which
is then popped. `none` when the wall is empty or `p` is not a player. -/
def dealOne (g : MahjongGame) (p : Nat) : Option MahjongGame := do
  let tile ← g.wall.getLast?
  let player ← g.players[p]?
  pure { g with players := g.players.set p (player.drawTile tile), wall := g.wall.dropLast }

/-- The method `MahjongGame::dealTiles`: thirteen rounds of one tile to each of
the four players. -/
def dealTiles (g : MahjongGame) : Option MahjongGame :=
  (List.range 13).foldlM (fun g _ => (List.range 4).foldlM dealOne g) g

/-- The constructor `MahjongGame::MahjongGame`. The random permutation that
`shuffleTiles` applies to the wall is the parameter `shuffle`. -/
def MahjongGame.construct (shuffle : List MahjongTile → List MahjongTile) :
    Option MahjongGame :=
  let players := (List.range 4).foldl
    (fun ps (i : Nat) => ps ++ [({ id := (i : Int) + 1, hand := [], discarded := [] } : Player)])
    []
  dealTiles
    { wall := shuffle (initializeTiles []), players := players, currentPlayer := 0,
      lastDrawnTile := invalidTile }

/-- The method `MahjongGame::drawTile`. -/
def MahjongGame.drawTile (g : MahjongGame) : Option MahjongGame :=
  if !g.wall.isEmpty then do
    let tile ← g.wall.getLast?
    let player ← g.players[g.currentPlayer]?
    pure { wall := g.wall.dropLast,
           players := g.players.set g.currentPlayer (player.drawTile tile),
           currentPlayer := g.currentPlayer,
           lastDrawnTile := tile }
  else
    pure g

/-- How a call of `MahjongGame::discardTile` ends: the process exits through
`exit(0)` after the winning announcement, or the call returns. -/
inductive DiscardResult where
  | exited (g : MahjongGame)
  | returned (g : MahjongGame)
deriving DecidableEq

/-- The method `MahjongGame::discardTile`. -/
def MahjongGame.discardTile (g : MahjongGame) (index : Nat) : Option DiscardResult := do
  let player ← g.players[g.currentPlayer]?
  let (_, player1) ← player.discardTile index
  let g1 : MahjongGame := { g with players := g.players.set g.currentPlayer player1 }
  let active ← g1.players[g1.currentPlayer]?
  if ← canWin active.hand then
    pure (.exited g1)
  else
    pure (.returned { g1 with currentPlayer := (g1.currentPlayer + 1) % 4 })

/-- The state in which a call of `MahjongGame::discardTile` leaves the game. -/
def DiscardResult.state : DiscardResult → MahjongGame
  | .exited g => g
  | .returned g => g

/-- The two ways in which `play` ends. -/
inductive Ending where
  | win
  | wallExhausted
deriving DecidableEq

/-- What a run of `play` leaves behind: how it ended, the final state and the
number of iterations of its loop. -/
structure PlayResult where
  ending : Ending
  final : MahjongGame
  turns : Nat
deriving DecidableEq

/-- The position `distance(hand.begin(), find(hand.begin(), hand.end(), tile))`:
the first index holding `tile`, or the size of the hand. -/
def findIndex (hand : List MahjongTile) (tile : MahjongTile) : Nat :=
  hand.findIdx (fun t => t.eq tile)

/-- One iteration of the loop of `play`: draw, then discard the tile found at
the position of `lastDrawnTile`. -/
def MahjongGame.turn (g : MahjongGame) : Option DiscardResult := do
  let g1 ← g.drawTile
  let active ← g1.players[g1.currentPlayer]?
  if !active.hand.isEmpty then
    g1.discardTile (findIndex active.hand g1.lastDrawnTile)
  else
    pure (.returned g1)

/-- The method `MahjongGame::play` with a bound on the iterations of its loop;
`none` when the bound is reached or an index is out of range. -/
def MahjongGame.play : Nat → MahjongGame → Option PlayResult
  | 0, g => if g.wall.isEmpty then some ⟨.wallExhausted, g, 0⟩ else none
  | fuel + 1, g =>
    if g.wall.isEmpty then some ⟨.wallExhausted, g, 0⟩
    else do
      match ← g.turn with
      | .exited g1 => pure ⟨.win, g1, 1⟩
      | .returned g1 =>
        let r ← MahjongGame.play fuel g1
        pure { r with turns := r.turns + 1 }

/-- The state after `k` iterations of the loop of `play` none of which ended
the game; `none` when the loop stopped before, or faulted. -/
def MahjongGame.turns : Nat → MahjongGame → Option MahjongGame
  | 0, g => some g
  | k + 1, g =>
    if g.wall.isEmpty then none
    else do
      match ← g.turn with
      | .exited _ => none
      | .returned g1 => MahjongGame.turns k g1

/-! ## What a complete hand is -/

/-- A meld: three identical tiles, or three consecutive ranks of one numbered
suit. -/
def IsMeld (m : List MahjongTile) : Prop :=
  (∃ t : MahjongTile, m = [t, t, t]) ∨
  (∃ (s : Suit) (r : Int), s.numbered ∧ m = [⟨s, r⟩, ⟨s, r + 1⟩, ⟨s, r + 2⟩])

/-- The tiles can be partitioned into melds. -/
def MeldPartition (tiles : List MahjongTile) : Prop :=
  ∃ melds : List (List MahjongTile), (∀ m ∈ melds, IsMeld m) ∧ melds.flatten.Perm tiles

/-- The hand can be partitioned into one pair of identical tiles and four
melds. -/
def Complete (hand : List MahjongTile) : Prop :=
  ∃ (x : MahjongTile) (melds : List (List MahjongTile)),
    melds.length = 4 ∧ (∀ m ∈ melds, IsMeld m) ∧ (x :: x :: melds.flatten).Perm hand

/-- The list is in tile order, as `std::sort` leaves it. -/
def TileSorted (tiles : List MahjongTile) : Prop :=
  List.Sorted MahjongTile.le tiles

instance TileSorted.decidable (tiles : List MahjongTile) : Decidable (TileSorted tiles) :=
  inferInstanceAs (Decidable (List.Sorted MahjongTile.le tiles))

/-- Equal tiles stay together: every tile that the list holds at least twice
has two copies at neighbouring positions. Any list in tile order is such. -/
def PairsAdjacent (tiles : List MahjongTile) : Prop :=
  ∀ x ∈ tiles, 2 ≤ tiles.count x →
    ∃ k, k < tiles.length ∧ tiles[k]? = some x ∧ tiles[k + 1]? = some x

instance PairsAdjacent.decidable (tiles : List MahjongTile) :
    Decidable (PairsAdjacent tiles) :=
  inferInstanceAs (Decidable (∀ x ∈ tiles, 2 ≤ tiles.count x →
    ∃ k, k < tiles.length ∧ tiles[k]? = some x ∧ tiles[k + 1]? = some x))

/-! ## Sample data -/

/-- The tile of rank `r` in the first numbered suit. -/
def character (r : Int) : MahjongTile :=
  ⟨.CHARACTER, r⟩

/-- The tile of rank `r` in the second numbered suit. -/
def bamboo (r : Int) : MahjongTile :=
  ⟨.BAMBOO, r⟩

/-- The tile of rank `r` in the third numbered suit. -/
def dot (r : Int) : MahjongTile :=
  ⟨.DOT, r⟩

/-- The wind tile of rank `r`. -/
def wind (r : Int) : MahjongTile :=
  ⟨.WIND, r⟩

/-- The dragon tile of rank `r`. -/
def dragon (r : Int) : MahjongTile :=
  ⟨.DRAGON, r⟩

/-- A complete hand in tile order: four triplets and a pair of one suit. -/
def winningHand : List MahjongTile :=
  [character 0, character 0, character 0, character 1, character 1, character 1,
   character 2, character 2, character 2, character 3, character 3, character 3,
   character 4, character 4]

/-- The tiles of `winningHand` in an order in which no two neighbours are equal. -/
def scatteredHand : List MahjongTile :=
  [character 0, character 1, character 2, character 3, character 4,
   character 0, character 1, character 2, character 3, character 4,
   character 0, character 1, character 2, character 3]

/-- An order of the 136 tiles of the wall in which the first player is dealt
thirteen tiles of `winningHand` and then draws the fourteenth. -/
def stackedWall : List MahjongTile :=
  [dragon 2, dragon 2, dragon 2, dragon 2, dragon 1, dragon 1, dragon 1, dragon 1, dragon 0,
   dragon 0, dragon 0, dragon 0, wind 3, wind 3, wind 3, wind 3, wind 2, wind 2, wind 2, wind 2,
   wind 1, wind 1, wind 1, wind 1, wind 0, wind 0, wind 0, wind 0, dot 8, dot 8, dot 8, dot 8,
   dot 7, dot 7, dot 7, dot 7, dot 6, dot 6, dot 6, dot 6, dot 5, dot 5, dot 5, dot 5, dot 4,
   dot 4, dot 4, dot 4, dot 3, dot 3, dot 3, dot 3, dot 2, dot 2, dot 2, dot 2, dot 1, dot 1,
   dot 1, dot 1, dot 0, dot 0, dot 0, dot 0, bamboo 8, bamboo 8, bamboo 8, bamboo 8, bamboo 7,
   bamboo 7, bamboo 7, bamboo 7, bamboo 6, bamboo 6, bamboo 6, bamboo 6, bamboo 5, bamboo 5,
   bamboo 5, bamboo 5, bamboo 4, bamboo 4, bamboo 4, character 4, bamboo 4, bamboo 3, bamboo 3,
   character 4, bamboo 3, bamboo 3, bamboo 2, character 3, bamboo 2, bamboo 2, bamboo 2,
   character 3, bamboo 1, bamboo 1, bamboo 1, character 3, bamboo 1, bamboo 0, bamboo 0,
   character 2, bamboo 0, bamboo 0, character 8, character 2, character 8, character 8,
   character 8, character 2, character 7, character 7, character 7, character 1, character 7,
   character 6, character 6, character 1, character 6, character 6, character 5, character 1,
   character 5, character 5, character 5, character 0, character 4, character 4, character 3,
   character 0, character 2, character 1, character 0, character 0]

/-- The shuffle that leaves the wall in the order `stackedWall`. -/
def stackedShuffle (_ : List MahjongTile) : List MahjongTile :=
  stackedWall

/-- Whether a call of `MahjongGame::discardTile` left through `exit(0)`. -/
def DiscardResult.isExit : DiscardResult → Bool
  | .exited _ => true
  | .returned _ => false

/-- A small game state: two tiles in the wall, the first player holding two. -/
def sampleGame : MahjongGame :=
  { wall := [character 3, character 1],
    players := [⟨1, [character 0, character 2], []⟩, ⟨2, [bamboo 5], []⟩, ⟨3, [], []⟩,
      ⟨4, [], []⟩],
    currentPlayer := 0,
    lastDrawnTile := invalidTile }

/-! ## Sample hands -/

/-- Fourteen tiles: a pair of `x` and a triplet of each of `t1`, `t2`, `t3`,
`t4`. -/
def pairAndTriplets (x t1 t2 t3 t4 : MahjongTile) : List MahjongTile :=
  [x, x, t1, t1, t1, t2, t2, t2, t3, t3, t3, t4, t4, t4]

/-- The three tiles of suit `s` with the consecutive ranks `r`, `r + 1`,
`r + 2`. -/
def runFrom (s : Suit) (r : Int) : List MahjongTile :=
  [⟨s, r⟩, ⟨s, r + 1⟩, ⟨s, r + 2⟩]

/-- Fourteen tiles: a pair of `x` and four runs. -/
def pairAndRuns (x : MahjongTile) (s1 : Suit) (r1 : Int) (s2 : Suit) (r2 : Int)
    (s3 : Suit) (r3 : Int) (s4 : Suit) (r4 : Int) : List MahjongTile :=
  x :: x :: (runFrom s1 r1 ++ runFrom s2 r2 ++ runFrom s3 r3 ++ runFrom s4 r4)

/-- A hand in tile order that holds one value four times: four tiles of rank
4, two of rank 5 and two of rank 6 in the first suit, three east winds and
three red dragons. -/
def quadHand : List MahjongTile :=
  [character 4, character 4, character 4, character 4, character 5, character 5,
   character 6, character 6, wind 0, wind 0, wind 0, dragon 0, dragon 0, dragon 0]

/-- A hand in tile order with a pair, three triplets and one each of the east,
south and west winds. -/
def nearRunHand : List MahjongTile :=
  [character 0, character 0, character 1, character 1, character 1, bamboo 2, bamboo 2,
   bamboo 2, dot 3, dot 3, dot 3, wind 0, wind 1, wind 2]

/-- A hand of fourteen different tiles. -/
def distinctHand : List MahjongTile :=
  [character 0, character 1, character 2, character 3, character 4, character 5, character 6,
   character 7, character 8, bamboo 0, bamboo 1, bamboo 2, bamboo 3, bamboo 4]

/-! ## Invariants of the game -/

/-- All tiles of a game state: the wall, then the hands of the players, then
their discard records. -/
def MahjongGame.allTiles (g : MahjongGame) : List MahjongTile :=
  g.wall ++ (g.players.map Player.hand).flatten ++ (g.players.map Player.discarded).flatten

/-- The state between two turns: four players, a valid active index, and every
hand in tile order with `n` tiles. -/
def MahjongGame.handsReady (g : MahjongGame) (n : Nat) : Prop :=
  g.players.length = 4 ∧ g.currentPlayer < 4 ∧
    ∀ p ∈ g.players, TileSorted p.hand ∧ p.hand.length = n

/-- The states that calls of `drawTile` and `discardTile` reach from the
constructed game. -/
inductive Reachable (shuffle : List MahjongTile → List MahjongTile) : MahjongGame → Prop
  | constructed {g : MahjongGame} :
    MahjongGame.construct shuffle = some g → Reachable shuffle g
  | drew {g g1 : MahjongGame} :
    Reachable shuffle g → g.drawTile = some g1 → Reachable shuffle g1
  | discarded {g : MahjongGame} {res : DiscardResult} (index : Nat) :
    Reachable shuffle g → g.discardTile index = some res → Reachable shuffle res.state

/-! ## The tile order -/

theorem Suit.toInt_inj {a b : Suit} : a.toInt = b.toInt ↔ a = b := by
  cases a <;> cases b <;> simp [Suit.toInt]

theorem MahjongTile.eq_iff {a b : MahjongTile} : a.eq b = true ↔ a = b := by
  cases a; cases b
  simp [MahjongTile.eq]

theorem MahjongTile.eq_false_iff {a b : MahjongTile} : a.eq b = false ↔ a ≠ b := by
  rw [Ne, ← MahjongTile.eq_iff]; simp

theorem MahjongTile.ext_iff_toInt {a b : MahjongTile} :
    a = b ↔ a.suit.toInt = b.suit.toInt ∧ a.rank = b.rank := by
  cases a; cases b
  simp [Suit.toInt_inj]

theorem MahjongTile.lt_iff {a b : MahjongTile} :
    a.lt b = true ↔
      a.suit.toInt < b.suit.toInt ∨ (a.suit.toInt = b.suit.toInt ∧ a.rank < b.rank) := by
  unfold MahjongTile.lt
  by_cases h : a.suit = b.suit
  · simp [h]
  · have h' : a.suit.toInt ≠ b.suit.toInt := fun e => h (Suit.toInt_inj.mp e)
    simp [h]
    intro he
    exact absurd he h'

theorem MahjongTile.le_iff {a b : MahjongTile} :
    a.le b ↔
      a.suit.toInt < b.suit.toInt ∨ (a.suit.toInt = b.suit.toInt ∧ a.rank ≤ b.rank) := by
  unfold MahjongTile.le
  rw [← Bool.not_eq_true, MahjongTile.lt_iff]
  omega

theorem MahjongTile.le_refl (a : MahjongTile) : a.le a :=
  MahjongTile.le_iff.mpr (Or.inr ⟨rfl, Int.le_refl _⟩)

theorem MahjongTile.le_total (a b : MahjongTile) : a.le b ∨ b.le a := by
  rw [MahjongTile.le_iff, MahjongTile.le_iff]; omega

theorem MahjongTile.le_trans {a b c : MahjongTile} (h₁ : a.le b) (h₂ : b.le c) : a.le c := by
  rw [MahjongTile.le_iff] at *; omega

theorem MahjongTile.le_antisymm {a b : MahjongTile} (h₁ : a.le b) (h₂ : b.le a) : a = b := by
  rw [MahjongTile.le_iff] at *
  rw [MahjongTile.ext_iff_toInt]; omega

theorem sortTiles_perm (v : List MahjongTile) : (sortTiles v).Perm v :=
  List.perm_insertionSort _ v

theorem sortTiles_sorted (v : List MahjongTile) : TileSorted (sortTiles v) := by
  haveI : IsTotal MahjongTile MahjongTile.le := ⟨MahjongTile.le_total⟩
  haveI : IsTrans MahjongTile MahjongTile.le := ⟨fun _ _ _ => MahjongTile.le_trans⟩
  exact List.sorted_insertionSort _ v

theorem eq_of_perm_of_tileSorted {v w : List MahjongTile} (h : v.Perm w)
    (hv : TileSorted v) (hw : TileSorted w) : v = w := by
  haveI : IsAntisymm MahjongTile MahjongTile.le := ⟨fun _ _ => MahjongTile.le_antisymm⟩
  exact List.eq_of_perm_of_sorted h hv hw

theorem sortTiles_eq_of_perm {v w : List MahjongTile} (h : v.Perm w) :
    sortTiles v = sortTiles w :=
  eq_of_perm_of_tileSorted (((sortTiles_perm v).trans h).trans (sortTiles_perm w).symm)
    (sortTiles_sorted v) (sortTiles_sorted w)

theorem sortTiles_eq_self {v : List MahjongTile} (hv : TileSorted v) : sortTiles v = v :=
  eq_of_perm_of_tileSorted (sortTiles_perm v) (sortTiles_sorted v) hv

theorem sortTiles_length (v : List MahjongTile) : (sortTiles v).length = v.length :=
  (sortTiles_perm v).length_eq

theorem MahjongTile.legal_ne_invalid {t : MahjongTile} (h : t.legal) : t ≠ invalidTile := by
  intro e
  subst e
  exact absurd h.1 (by decide)


/-! ## The removal loops -/

theorem removeRun_eq_erase (first : MahjongTile) :
    ∀ (l : List MahjongTile) (rf : Bool) (a b : MahjongTile), invalidTile ∉ l →
      removeRun first rf a b l = ((if rf then l else l.erase first).erase a).erase b := by
  intro l
  induction l with
  | nil => intro rf a b _; cases rf <;> simp [removeRun]
  | cons tile rest ih =>
    intro rf a b hinv
    have hrest : invalidTile ∉ rest := fun h => hinv (List.mem_cons_of_mem _ h)
    have hne : tile ≠ invalidTile := fun h => hinv (h ▸ List.mem_cons_self _ _)
    have hrest' : invalidTile ∉ rest.erase first := fun h => hrest (List.mem_of_mem_erase h)
    have hX : invalidTile ∉ (if rf then rest else rest.erase first) := by
      cases rf <;> simp [hrest, hrest']
    unfold removeRun
    by_cases h1 : (!rf && tile.eq first) = true
    · rw [if_pos h1]
      simp only [Bool.and_eq_true, Bool.not_eq_true', MahjongTile.eq_iff] at h1
      obtain ⟨hrf, rfl⟩ := h1
      subst hrf
      rw [ih true a b hrest]
      simp
    · rw [if_neg h1]
      have hhead : (if rf then tile :: rest else (tile :: rest).erase first)
          = tile :: (if rf then rest else rest.erase first) := by
        cases rf
        · simp only [Bool.not_false, Bool.true_and, MahjongTile.eq_iff] at h1
          simp [List.erase_cons, h1]
        · simp
      rw [hhead]
      by_cases h2 : tile.eq a = true
      · rw [if_pos h2]
        rw [MahjongTile.eq_iff] at h2
        subst h2
        rw [ih rf invalidTile b hrest, List.erase_of_not_mem hX]
        simp
      · rw [if_neg h2]
        rw [MahjongTile.eq_iff] at h2
        by_cases h3 : tile.eq b = true
        · rw [if_pos h3]
          rw [MahjongTile.eq_iff] at h3
          subst h3
          rw [ih rf a invalidTile hrest]
          have : invalidTile ∉ (if rf then rest else rest.erase first).erase a :=
            fun h => hX (List.mem_of_mem_erase h)
          rw [List.erase_of_not_mem this]
          simp [List.erase_cons, h2]
        · rw [if_neg h3]
          rw [MahjongTile.eq_iff] at h3
          rw [ih rf a b hrest]
          simp [List.erase_cons, h2, h3]

theorem removePairAt_of_lt (i : Nat) :
    ∀ (l : List MahjongTile) (j : Nat), i + 1 < j → removePairAt i j l = l := by
  intro l
  induction l with
  | nil => intro j _; rfl
  | cons t ts ih =>
    intro j hj
    unfold removePairAt
    rw [if_pos (by omega), ih (j + 1) (by omega)]

theorem removePairAt_perm :
    ∀ (l : List MahjongTile) (j k : Nat) (a b : MahjongTile),
      l[k]? = some a → l[k + 1]? = some b →
      l.Perm (a :: b :: removePairAt (j + k) j l) := by
  intro l
  induction l with
  | nil => intro j k a b h; simp at h
  | cons t ts ih =>
    intro j k a b ha hb
    cases k with
    | zero =>
      cases ts with
      | nil => simp at hb
      | cons u us =>
        simp at ha hb
        subst ha; subst hb
        simp [removePairAt, removePairAt_of_lt]
    | succ k =>
      simp at ha hb
      have := ih (j + 1) k a b ha hb
      unfold removePairAt
      rw [if_pos (by omega)]
      have e : j + 1 + k = j + (k + 1) := by omega
      rw [e] at this
      exact ((List.Perm.cons t this).trans (List.Perm.swap a t _)).trans
        (List.Perm.cons a (List.Perm.swap b t _))

theorem removePairAt_length (i : Nat) (l : List MahjongTile) (j : Nat) :
    (removePairAt i j l).length ≤ l.length := by
  induction l generalizing j with
  | nil => simp [removePairAt]
  | cons t ts ih =>
    unfold removePairAt
    split
    · simpa using ih (j + 1)
    · exact Nat.le_succ_of_le (ih (j + 1))


/-! ## Meld partitions -/

theorem MeldPartition.nil : MeldPartition [] :=
  ⟨[], by simp, by simp⟩

theorem MeldPartition.perm {l l' : List MahjongTile} (h : l.Perm l') (hl : MeldPartition l) :
    MeldPartition l' := by
  obtain ⟨melds, hm, hp⟩ := hl
  exact ⟨melds, hm, hp.trans h⟩

theorem MeldPartition.cons_meld {m r l : List MahjongTile} (hm : IsMeld m)
    (hr : MeldPartition r) (h : (m ++ r).Perm l) : MeldPartition l := by
  obtain ⟨melds, hall, hp⟩ := hr
  refine ⟨m :: melds, ?_, ?_⟩
  · intro x hx
    rcases List.mem_cons.mp hx with rfl | hx
    · exact hm
    · exact hall x hx
  · rw [List.flatten_cons]
    exact (List.Perm.append_left m hp).trans h

theorem MeldPartition.extract {l : List MahjongTile} {t : MahjongTile} (hl : MeldPartition l)
    (ht : t ∈ l) : ∃ m J, IsMeld m ∧ t ∈ m ∧ MeldPartition J ∧ (m ++ J).Perm l := by
  obtain ⟨melds, hall, hp⟩ := hl
  have ht' : t ∈ melds.flatten := hp.symm.subset ht
  obtain ⟨m, hm, htm⟩ := List.mem_flatten.mp ht'
  obtain ⟨pre, post, rfl⟩ := List.append_of_mem hm
  refine ⟨m, (pre ++ post).flatten, hall m hm, htm, ⟨pre ++ post, ?_, List.Perm.refl _⟩, ?_⟩
  · intro x hx
    apply hall x
    rcases List.mem_append.mp hx with h | h
    · exact List.mem_append_left _ h
    · exact List.mem_append_right _ (List.mem_cons_of_mem _ h)
  · have hmid : (pre ++ m :: post).Perm (m :: (pre ++ post)) := List.perm_middle
    have : (m :: (pre ++ post)).flatten.Perm (pre ++ m :: post).flatten := hmid.symm.flatten
    rw [List.flatten_cons] at this
    exact this.trans hp

theorem IsMeld.length {m : List MahjongTile} (hm : IsMeld m) : m.length = 3 := by
  rcases hm with ⟨t, rfl⟩ | ⟨s, r, _, rfl⟩ <;> rfl

theorem flatten_melds_length :
    ∀ melds : List (List MahjongTile), (∀ m ∈ melds, IsMeld m) →
      melds.flatten.length = 3 * melds.length := by
  intro melds
  induction melds with
  | nil => intro _; rfl
  | cons m ms ih =>
    intro h
    rw [List.flatten_cons, List.length_append, (h m (List.mem_cons_self _ _)).length,
      ih (fun x hx => h x (List.mem_cons_of_mem _ hx)), List.length_cons]
    omega

theorem MeldPartition.length_mod {l : List MahjongTile} (hl : MeldPartition l) :
    l.length % 3 = 0 := by
  obtain ⟨melds, hall, hp⟩ := hl
  rw [← hp.length_eq, flatten_melds_length melds hall]
  omega

/-! ## Sorted vectors -/

theorem TileSorted.head_eq {a : MahjongTile} {rest : List MahjongTile}
    (hs : TileSorted (a :: rest)) (ha : a ∈ rest) : ∃ rest', rest = a :: rest' := by
  cases rest with
  | nil => simp at ha
  | cons b rest' =>
    refine ⟨rest', ?_⟩
    have hab : a.le b := List.rel_of_sorted_cons hs b (List.mem_cons_self _ _)
    have hba : b.le a := by
      rcases List.mem_cons.mp ha with rfl | h
      · exact MahjongTile.le_refl _
      · exact List.rel_of_sorted_cons (List.Sorted.of_cons hs) a h
    rw [MahjongTile.le_antisymm hab hba]

theorem TileSorted.triplet_front {t0 : MahjongTile} {rest J : List MahjongTile}
    (hs : TileSorted (t0 :: rest)) (hp : (t0 :: rest).Perm (t0 :: t0 :: t0 :: J)) :
    ∃ r, rest = t0 :: t0 :: r ∧ r.Perm J := by
  have h1 : rest.Perm (t0 :: t0 :: J) := hp.cons_inv
  obtain ⟨rest', rfl⟩ := hs.head_eq (h1.symm.subset (List.mem_cons_self _ _))
  have h2 : rest'.Perm (t0 :: J) := h1.cons_inv
  obtain ⟨r, rfl⟩ :=
    TileSorted.head_eq (List.Sorted.of_cons hs) (h2.symm.subset (List.mem_cons_self _ _))
  exact ⟨r, rfl, h2.cons_inv⟩

/-- In a sorted vector that splits into melds, the first tile opens a triplet
or a run: the two cases that `canFormMeldSets` tries. -/
theorem meldPartition_sorted_cons {t0 : MahjongTile} {rest : List MahjongTile}
    (hs : TileSorted (t0 :: rest)) :
    MeldPartition (t0 :: rest) ↔
      (∃ r, rest = t0 :: t0 :: r ∧ MeldPartition r) ∨
      (t0.suit.numbered ∧ (⟨t0.suit, t0.rank + 1⟩ : MahjongTile) ∈ t0 :: rest ∧
        (⟨t0.suit, t0.rank + 2⟩ : MahjongTile) ∈ t0 :: rest ∧
        MeldPartition ((((t0 :: rest).erase t0).erase ⟨t0.suit, t0.rank + 1⟩).erase
          ⟨t0.suit, t0.rank + 2⟩)) := by
  constructor
  · intro hmp
    obtain ⟨m, J, hm, htm, hJ, hp⟩ := hmp.extract (List.mem_cons_self t0 rest)
    rcases hm with ⟨t, rfl⟩ | ⟨s, r, hnum, rfl⟩
    · have : t0 = t := by simpa using htm
      subst this
      obtain ⟨r, hr, hrJ⟩ := hs.triplet_front hp.symm
      exact Or.inl ⟨r, hr, hJ.perm hrJ.symm⟩
    · right
      have hmin : ∀ x ∈ t0 :: rest, t0.le x := by
        intro x hx
        rcases List.mem_cons.mp hx with rfl | hx
        · exact MahjongTile.le_refl _
        · exact List.rel_of_sorted_cons hs x hx
      have hfirst : (⟨s, r⟩ : MahjongTile) ∈ t0 :: rest := hp.subset (by simp)
      have hle := MahjongTile.le_iff.mp (hmin _ hfirst)
      have ht0 : t0 = ⟨s, r⟩ := by
        simp only [List.cons_append, List.nil_append, List.mem_cons] at htm
        rcases htm with h | h | h | h
        · exact h
        · subst h; simp at hle
        · subst h; simp at hle
        · simp at h
      subst ht0
      refine ⟨hnum, hp.subset (by simp), hp.subset (by simp), ?_⟩
      have h3 := ((hp.symm.erase (⟨s, r⟩ : MahjongTile)).erase
        (⟨s, r + 1⟩ : MahjongTile)).erase (⟨s, r + 2⟩ : MahjongTile)
      simp at h3
      simp
      exact hJ.perm h3.symm
  · rintro (⟨r, rfl, hr⟩ | ⟨hnum, h1, h2, hmp⟩)
    · exact MeldPartition.cons_meld (Or.inl ⟨t0, rfl⟩) hr (List.Perm.refl _)
    · refine MeldPartition.cons_meld
        (Or.inr ⟨t0.suit, t0.rank, hnum, rfl⟩) hmp ?_
      have n01 : (⟨t0.suit, t0.rank + 1⟩ : MahjongTile) ≠ t0 := by
        intro e; have := congrArg MahjongTile.rank e; simp at this
      have n02 : (⟨t0.suit, t0.rank + 2⟩ : MahjongTile) ≠ t0 := by
        intro e; have := congrArg MahjongTile.rank e; simp at this
      have n12 : (⟨t0.suit, t0.rank + 2⟩ : MahjongTile) ≠ ⟨t0.suit, t0.rank + 1⟩ := by
        intro e; have := congrArg MahjongTile.rank e; simp at this
      have m1 : (⟨t0.suit, t0.rank + 1⟩ : MahjongTile) ∈ (t0 :: rest).erase t0 :=
        (List.mem_erase_of_ne n01).mpr h1
      have m2 : (⟨t0.suit, t0.rank + 2⟩ : MahjongTile) ∈
          ((t0 :: rest).erase t0).erase ⟨t0.suit, t0.rank + 1⟩ :=
        (List.mem_erase_of_ne n12).mpr ((List.mem_erase_of_ne n02).mpr h2)
      have p0 := List.perm_cons_erase (List.mem_cons_self t0 rest)
      have p1 := List.perm_cons_erase m1
      have p2 := List.perm_cons_erase m2
      exact ((p2.symm.cons _).cons _).trans ((p1.symm.cons _).trans p0.symm)


/-! ## The branches of `canFormMeldSets` -/

theorem tripletRest_short {l : List MahjongTile} (h : l.length < 3) :
    tripletRest l = some none := by
  unfold tripletRest
  rw [if_neg (by omega)]
  rfl

theorem tripletRest_cons (a b c : MahjongTile) (r : List MahjongTile) :
    tripletRest (a :: b :: c :: r) = some (if a = b ∧ b = c then some r else none) := by
  unfold tripletRest
  simp only [List.length_cons, List.getElem?_cons_zero, List.getElem?_cons_succ,
    Option.bind_eq_bind, Option.some_bind, Bool.and_eq_true, MahjongTile.eq_iff,
    List.drop_succ_cons, List.drop_zero]
  rw [if_pos (by omega)]
  split_ifs <;> rfl

theorem any_eq_iff_mem (l : List MahjongTile) (x : MahjongTile) :
    l.any (fun t => t.eq x) = true ↔ x ∈ l := by
  simp [List.any_eq_true, MahjongTile.eq_iff]

theorem runRest_cons (t0 : MahjongTile) (rest : List MahjongTile) :
    runRest (t0 :: rest) =
      some (if t0.suit.numbered ∧ (⟨t0.suit, t0.rank + 1⟩ : MahjongTile) ∈ t0 :: rest ∧
          (⟨t0.suit, t0.rank + 2⟩ : MahjongTile) ∈ t0 :: rest
        then some (removeRun t0 false ⟨t0.suit, t0.rank + 1⟩ ⟨t0.suit, t0.rank + 2⟩ (t0 :: rest))
        else none) := by
  unfold runRest Suit.numbered
  simp only [List.getElem?_cons_zero, Option.bind_eq_bind, Option.some_bind, Bool.and_eq_true,
    any_eq_iff_mem]
  split_ifs with h1 h2 h3 h4 <;> first | rfl | (exfalso; tauto)

theorem removeRun_length_le (first : MahjongTile) :
    ∀ (l : List MahjongTile) (rf : Bool) (a b : MahjongTile),
      (removeRun first rf a b l).length ≤ l.length := by
  intro l
  induction l with
  | nil => intro rf a b; simp [removeRun]
  | cons t ts ih =>
    intro rf a b
    unfold removeRun
    split
    · exact Nat.le_succ_of_le (ih _ _ _)
    · split
      · exact Nat.le_succ_of_le (ih _ _ _)
      · split
        · exact Nat.le_succ_of_le (ih _ _ _)
        · simpa using ih _ _ _

theorem removeRun_length_lt (t0 a b : MahjongTile) (rest : List MahjongTile) :
    (removeRun t0 false a b (t0 :: rest)).length < (t0 :: rest).length := by
  unfold removeRun
  rw [if_pos (by simp [MahjongTile.eq_iff.mpr rfl])]
  exact Nat.lt_succ_of_le (removeRun_length_le _ _ _ _ _)

theorem canFormMeldSetsFuel_nil (fuel : Nat) : canFormMeldSetsFuel fuel [] = some true := by
  cases fuel <;> simp [canFormMeldSetsFuel]

theorem canFormMeldSetsFuel_succ (fuel : Nat) {tiles : List MahjongTile} (h : tiles ≠ []) :
    canFormMeldSetsFuel (fuel + 1) tiles =
      ((tripletRest (sortTiles tiles)).bind (fun tr =>
        tr.elim (some false) (canFormMeldSetsFuel fuel))).bind (fun viaTriplet =>
          if viaTriplet = true then some true
          else (runRest (sortTiles tiles)).bind (fun rr =>
            rr.elim (some false) (canFormMeldSetsFuel fuel))) := by
  rw [canFormMeldSetsFuel]
  rw [if_neg (by simpa using h)]
  dsimp only
  generalize tripletRest (sortTiles tiles) = T
  generalize runRest (sortTiles tiles) = R
  rcases T with _ | _ | nt <;> rcases R with _ | _ | nt' <;> rfl

theorem sortTiles_ne_nil {tiles : List MahjongTile} (h : tiles ≠ []) :
    sortTiles tiles ≠ [] := by
  intro e
  have := sortTiles_length tiles
  rw [e] at this
  exact h (List.length_eq_zero.mp this.symm)


/-! ## Termination of the search -/

theorem tripletRest_total (l : List MahjongTile) :
    ∃ tr, tripletRest l = some tr ∧ ∀ nt, tr = some nt → nt.length + 3 = l.length := by
  match l with
  | [] => exact ⟨none, tripletRest_short (by simp), by simp⟩
  | [_] => exact ⟨none, tripletRest_short (by simp), by simp⟩
  | [_, _] => exact ⟨none, tripletRest_short (by simp), by simp⟩
  | a :: b :: c :: r =>
    refine ⟨_, tripletRest_cons a b c r, ?_⟩
    intro nt h
    split_ifs at h
    cases h; simp

theorem runRest_total {l : List MahjongTile} (hl : l ≠ []) :
    ∃ rr, runRest l = some rr ∧ ∀ nt, rr = some nt → nt.length < l.length := by
  match l, hl with
  | t0 :: rest, _ =>
    refine ⟨_, runRest_cons t0 rest, ?_⟩
    intro nt h
    split_ifs at h
    cases h; exact removeRun_length_lt _ _ _ _

theorem canFormMeldSetsFuel_total :
    ∀ (fuel : Nat) (tiles : List MahjongTile), tiles.length ≤ fuel →
      ∃ b, canFormMeldSetsFuel fuel tiles = some b := by
  intro fuel
  induction fuel with
  | zero =>
    intro tiles h
    have : tiles = [] := List.length_eq_zero.mp (Nat.le_zero.mp h)
    subst this
    exact ⟨true, canFormMeldSetsFuel_nil 0⟩
  | succ fuel ih =>
    intro tiles h
    by_cases hnil : tiles = []
    · subst hnil; exact ⟨true, canFormMeldSetsFuel_nil _⟩
    · obtain ⟨tr, htr, htrlen⟩ := tripletRest_total (sortTiles tiles)
      obtain ⟨rr, hrr, hrrlen⟩ := runRest_total (sortTiles_ne_nil hnil)
      rw [sortTiles_length] at htrlen hrrlen
      rw [canFormMeldSetsFuel_succ fuel hnil, htr, hrr]
      simp only [Option.some_bind]
      have hrun : ∃ b, rr.elim (some false) (canFormMeldSetsFuel fuel) = some b := by
        cases rr with
        | none => exact ⟨false, rfl⟩
        | some nt => exact ih nt (by have := hrrlen nt rfl; omega)
      have htri : ∃ b, tr.elim (some false) (canFormMeldSetsFuel fuel) = some b := by
        cases tr with
        | none => exact ⟨false, rfl⟩
        | some nt => exact ih nt (by have := htrlen nt rfl; omega)
      obtain ⟨b1, h1⟩ := htri
      obtain ⟨b2, h2⟩ := hrun
      rw [h1, h2]
      cases b1
      · exact ⟨b2, by simp⟩
      · exact ⟨true, by simp⟩

theorem canFormMeldSetsFuel_fuel_irrelevant :
    ∀ (fuel fuel' : Nat) (tiles : List MahjongTile),
      tiles.length ≤ fuel → tiles.length ≤ fuel' →
      canFormMeldSetsFuel fuel tiles = canFormMeldSetsFuel fuel' tiles := by
  intro fuel
  induction fuel with
  | zero =>
    intro fuel' tiles h _
    have : tiles = [] := List.length_eq_zero.mp (Nat.le_zero.mp h)
    subst this
    rw [canFormMeldSetsFuel_nil, canFormMeldSetsFuel_nil]
  | succ fuel ih =>
    intro fuel' tiles h h'
    by_cases hnil : tiles = []
    · subst hnil; rw [canFormMeldSetsFuel_nil, canFormMeldSetsFuel_nil]
    · have hpos : 0 < tiles.length := List.length_pos.mpr hnil
      obtain ⟨f', rfl⟩ : ∃ f', fuel' = f' + 1 := ⟨fuel' - 1, by omega⟩
      obtain ⟨tr, htr, htrlen⟩ := tripletRest_total (sortTiles tiles)
      obtain ⟨rr, hrr, hrrlen⟩ := runRest_total (sortTiles_ne_nil hnil)
      rw [sortTiles_length] at htrlen hrrlen
      rw [canFormMeldSetsFuel_succ fuel hnil, canFormMeldSetsFuel_succ f' hnil, htr, hrr]
      have e1 : tr.elim (some false) (canFormMeldSetsFuel fuel) =
          tr.elim (some false) (canFormMeldSetsFuel f') := by
        cases tr with
        | none => rfl
        | some nt =>
          have := htrlen nt rfl
          exact ih f' nt (by omega) (by omega)
      have e2 : rr.elim (some false) (canFormMeldSetsFuel fuel) =
          rr.elim (some false) (canFormMeldSetsFuel f') := by
        cases rr with
        | none => rfl
        | some nt =>
          have := hrrlen nt rfl
          exact ih f' nt (by omega) (by omega)
      simp only [Option.some_bind]
      rw [e1, e2]

theorem canFormMeldSetsFuel_eq {fuel : Nat} {tiles : List MahjongTile}
    (h : tiles.length ≤ fuel) : canFormMeldSetsFuel fuel tiles = canFormMeldSets tiles :=
  canFormMeldSetsFuel_fuel_irrelevant fuel tiles.length tiles h (Nat.le_refl _)

theorem canFormMeldSets_total (tiles : List MahjongTile) :
    ∃ b, canFormMeldSets tiles = some b :=
  canFormMeldSetsFuel_total tiles.length tiles (Nat.le_refl _)

theorem canWinLoop_total (hand : List MahjongTile) :
    ∀ (n i : Nat), i + n < hand.length → ∃ b, canWinLoop hand n i = some b := by
  intro n
  induction n with
  | zero => intro i _; exact ⟨false, rfl⟩
  | succ n ih =>
    intro i h
    obtain ⟨b, hb⟩ := ih (i + 1) (by omega)
    have ha : hand[i]? = some hand[i] := List.getElem?_eq_getElem (by omega)
    have hb' : hand[i + 1]? = some hand[i + 1] := List.getElem?_eq_getElem (by omega)
    obtain ⟨c, hc⟩ := canFormMeldSets_total (removePairAt i 0 hand)
    unfold canWinLoop
    rw [ha, hb']
    simp only [Option.bind_eq_bind, Option.some_bind]
    by_cases he : (hand[i].eq hand[i + 1]) = true
    · rw [if_pos he, hc]
      cases c
      · exact ⟨b, by simpa using hb⟩
      · exact ⟨true, by simp⟩
    · rw [if_neg he]
      exact ⟨b, by simpa using hb⟩

theorem canWin_total (hand : List MahjongTile) : ∃ b, canWin hand = some b := by
  unfold canWin
  by_cases h : hand.length ≠ 14
  · rw [if_pos h]; exact ⟨false, rfl⟩
  · rw [if_neg h]
    exact canWinLoop_total hand _ _ (by omega)


/-! ## Correctness of the search on legal tiles -/

theorem canFormMeldSetsFuel_correct :
    ∀ (fuel : Nat) (tiles : List MahjongTile), tiles.length ≤ fuel →
      (∀ t ∈ tiles, t.legal) →
      ∃ b, canFormMeldSetsFuel fuel tiles = some b ∧ (b = true ↔ MeldPartition tiles) := by
  intro fuel
  induction fuel with
  | zero =>
    intro tiles h _
    have : tiles = [] := List.length_eq_zero.mp (Nat.le_zero.mp h)
    subst this
    exact ⟨true, canFormMeldSetsFuel_nil 0, by simp [MeldPartition.nil]⟩
  | succ fuel ih =>
    intro tiles hlen hlegal
    by_cases hnil : tiles = []
    · subst hnil
      exact ⟨true, canFormMeldSetsFuel_nil _, by simp [MeldPartition.nil]⟩
    · have hperm := sortTiles_perm tiles
      have hsorted := sortTiles_sorted tiles
      have hslen := sortTiles_length tiles
      have hne := sortTiles_ne_nil hnil
      rw [canFormMeldSetsFuel_succ fuel hnil]
      generalize sortTiles tiles = s at hperm hsorted hslen hne
      have hslegal : ∀ t ∈ s, t.legal := fun t ht => hlegal t (hperm.subset ht)
      have hinv : invalidTile ∉ s := fun h => MahjongTile.legal_ne_invalid (hslegal _ h) rfl
      have hiff : MeldPartition tiles ↔ MeldPartition s :=
        ⟨fun h => h.perm hperm.symm, fun h => h.perm hperm⟩
      rw [hiff]
      match s, hne with
      | t0 :: rest, _ =>
        rw [meldPartition_sorted_cons hsorted]
        have hT : ∃ bT, (tripletRest (t0 :: rest)).bind
              (fun tr => tr.elim (some false) (canFormMeldSetsFuel fuel)) = some bT ∧
            (bT = true ↔ ∃ r, rest = t0 :: t0 :: r ∧ MeldPartition r) := by
          match rest with
          | [] => exact ⟨false, by rw [tripletRest_short (by simp)]; rfl, by simp⟩
          | [_] => exact ⟨false, by rw [tripletRest_short (by simp)]; rfl, by simp⟩
          | b :: c :: r =>
            rw [tripletRest_cons]
            by_cases hbc : t0 = b ∧ b = c
            · obtain ⟨rfl, rfl⟩ := hbc
              obtain ⟨bT, h1, h2⟩ := ih r (by simp at hslen; omega)
                (fun t ht => hslegal t (by simp [ht]))
              refine ⟨bT, by simpa using h1, ?_⟩
              rw [h2]
              constructor
              · intro h; exact ⟨r, rfl, h⟩
              · rintro ⟨r', e, h⟩
                simp only [List.cons.injEq, true_and] at e
                exact e ▸ h
            · refine ⟨false, by rw [if_neg hbc]; rfl, ?_⟩
              simp only [Bool.false_eq_true, false_iff, not_exists, not_and]
              intro r' e
              simp only [List.cons.injEq] at e
              exact absurd (And.intro e.1.symm (e.1.trans e.2.1.symm)) hbc
        have hR : ∃ bR, (runRest (t0 :: rest)).bind
              (fun rr => rr.elim (some false) (canFormMeldSetsFuel fuel)) = some bR ∧
            (bR = true ↔ (t0.suit.numbered ∧
              (⟨t0.suit, t0.rank + 1⟩ : MahjongTile) ∈ t0 :: rest ∧
              (⟨t0.suit, t0.rank + 2⟩ : MahjongTile) ∈ t0 :: rest ∧
              MeldPartition ((((t0 :: rest).erase t0).erase ⟨t0.suit, t0.rank + 1⟩).erase
                ⟨t0.suit, t0.rank + 2⟩))) := by
          rw [runRest_cons]
          by_cases hc : t0.suit.numbered ∧ (⟨t0.suit, t0.rank + 1⟩ : MahjongTile) ∈ t0 :: rest ∧
              (⟨t0.suit, t0.rank + 2⟩ : MahjongTile) ∈ t0 :: rest
          · rw [if_pos hc]
            have hlt := removeRun_length_lt t0 ⟨t0.suit, t0.rank + 1⟩ ⟨t0.suit, t0.rank + 2⟩ rest
            rw [removeRun_eq_erase t0 _ false _ _ hinv] at hlt ⊢
            simp only [Bool.false_eq_true, if_false] at hlt ⊢
            obtain ⟨bR, h1, h2⟩ := ih ((((t0 :: rest).erase t0).erase
                ⟨t0.suit, t0.rank + 1⟩).erase ⟨t0.suit, t0.rank + 2⟩) (by omega)
              (fun t ht => hslegal t
                (List.mem_of_mem_erase (List.mem_of_mem_erase (List.mem_of_mem_erase ht))))
            refine ⟨bR, by simpa using h1, ?_⟩
            rw [h2]
            constructor
            · intro h; exact ⟨hc.1, hc.2.1, hc.2.2, h⟩
            · intro h; exact h.2.2.2
          · refine ⟨false, by rw [if_neg hc]; rfl, ?_⟩
            simp only [Bool.false_eq_true, false_iff]
            intro h
            exact hc ⟨h.1, h.2.1, h.2.2.1⟩
        obtain ⟨bT, hT1, hT2⟩ := hT
        obtain ⟨bR, hR1, hR2⟩ := hR
        rw [hT1, ← hT2, ← hR2]
        cases bT
        · exact ⟨bR, by simpa using hR1, by simp⟩
        · exact ⟨true, by simp, by simp⟩

theorem canFormMeldSets_correct {tiles : List MahjongTile} (hlegal : ∀ t ∈ tiles, t.legal) :
    ∃ b, canFormMeldSets tiles = some b ∧ (b = true ↔ MeldPartition tiles) :=
  canFormMeldSetsFuel_correct tiles.length tiles (Nat.le_refl _) hlegal

theorem canFormMeldSets_perm {v w : List MahjongTile} (h : v.Perm w) :
    canFormMeldSets v = canFormMeldSets w := by
  unfold canFormMeldSets
  rw [h.length_eq]
  match hw : w.length with
  | 0 =>
    have e1 : w = [] := List.length_eq_zero.mp hw
    have e2 : v = [] := List.length_eq_zero.mp (h.length_eq.trans hw)
    rw [e1, e2]
  | n + 1 =>
    have hw' : w ≠ [] := by intro e; rw [e] at hw; simp at hw
    have hv' : v ≠ [] := by intro e; rw [e] at h; exact hw' h.symm.eq_nil
    rw [canFormMeldSetsFuel_succ n hv', canFormMeldSetsFuel_succ n hw', sortTiles_eq_of_perm h]


/-! ## The pair loop of `canWin` -/

theorem canWinLoop_true_iff (hand : List MahjongTile) :
    ∀ (n i : Nat), i + n < hand.length →
      (canWinLoop hand n i = some true ↔
        ∃ k x, i ≤ k ∧ k < i + n ∧ hand[k]? = some x ∧ hand[k + 1]? = some x ∧
          canFormMeldSets (removePairAt k 0 hand) = some true) := by
  intro n
  induction n with
  | zero =>
    intro i _
    simp only [canWinLoop, Option.some.injEq, Bool.false_eq_true, false_iff]
    rintro ⟨k, x, h1, h2, _⟩
    omega
  | succ n ih =>
    intro i h
    have ha : hand[i]? = some hand[i] := List.getElem?_eq_getElem (by omega)
    have hb : hand[i + 1]? = some hand[i + 1] := List.getElem?_eq_getElem (by omega)
    obtain ⟨c, hc⟩ := canFormMeldSets_total (removePairAt i 0 hand)
    have hrec := ih (i + 1) (by omega)
    have hxi : ∀ x, hand[i]? = some x → hand[i + 1]? = some x → hand[i] = hand[i + 1] := by
      intro x h3 h4
      rw [ha] at h3
      rw [hb] at h4
      exact (Option.some.inj h3).trans (Option.some.inj h4).symm
    unfold canWinLoop
    rw [ha, hb]
    simp only [Option.bind_eq_bind, Option.some_bind]
    by_cases he : hand[i].eq hand[i + 1] = true
    · rw [if_pos he, hc]
      simp only [Option.some_bind]
      rw [MahjongTile.eq_iff] at he
      cases c with
      | true =>
        simp only [if_true]
        refine ⟨fun _ => ⟨i, hand[i], Nat.le_refl _, by omega, ha, ?_, hc⟩, fun _ => rfl⟩
        rw [hb, he]
      | false =>
        simp only [Bool.false_eq_true, if_false]
        rw [hrec]
        constructor
        · rintro ⟨k, x, h1, h2, h3, h4, h5⟩
          exact ⟨k, x, by omega, by omega, h3, h4, h5⟩
        · rintro ⟨k, x, h1, h2, h3, h4, h5⟩
          by_cases hk : k = i
          · subst hk
            rw [hc] at h5
            cases h5
          · exact ⟨k, x, by omega, by omega, h3, h4, h5⟩
    · rw [if_neg he]
      simp only [Option.pure_def, Option.some_bind, Bool.false_eq_true, if_false]
      rw [MahjongTile.eq_iff] at he
      rw [hrec]
      constructor
      · rintro ⟨k, x, h1, h2, h3, h4, h5⟩
        exact ⟨k, x, by omega, by omega, h3, h4, h5⟩
      · rintro ⟨k, x, h1, h2, h3, h4, h5⟩
        by_cases hk : k = i
        · subst hk
          exact absurd (hxi x h3 h4) he
        · exact ⟨k, x, by omega, by omega, h3, h4, h5⟩

theorem canWin_true_iff (hand : List MahjongTile) :
    canWin hand = some true ↔
      hand.length = 14 ∧ ∃ k x, hand[k]? = some x ∧ hand[k + 1]? = some x ∧
        canFormMeldSets (removePairAt k 0 hand) = some true := by
  unfold canWin
  by_cases h : hand.length ≠ 14
  · rw [if_pos h]
    simp [h]
  · rw [if_neg h]
    have h14 : hand.length = 14 := by omega
    rw [canWinLoop_true_iff hand _ _ (by omega)]
    constructor
    · rintro ⟨k, x, _, _, h3, h4, h5⟩
      exact ⟨h14, k, x, h3, h4, h5⟩
    · rintro ⟨_, k, x, h3, h4, h5⟩
      have : k + 1 < hand.length := by
        by_contra hk
        rw [List.getElem?_eq_none (by omega)] at h4
        cases h4
      exact ⟨k, x, Nat.zero_le _, by omega, h3, h4, h5⟩

theorem TileSorted.adjacent_of_count {x : MahjongTile} :
    ∀ {l : List MahjongTile}, TileSorted l → 2 ≤ l.count x →
      ∃ k, l[k]? = some x ∧ l[k + 1]? = some x := by
  intro l
  induction l with
  | nil => intro _ h; simp at h
  | cons a rest ih =>
    intro hs hc
    by_cases hax : a = x
    · subst hax
      rw [List.count_cons_self] at hc
      have hmem : a ∈ rest := List.count_pos_iff.mp (by omega)
      obtain ⟨rest', rfl⟩ := hs.head_eq hmem
      exact ⟨0, by simp, by simp⟩
    · rw [List.count_cons_of_ne (fun e => hax e.symm)] at hc
      obtain ⟨k, h1, h2⟩ := ih (List.Sorted.of_cons hs) hc
      exact ⟨k + 1, by simpa using h1, by simpa using h2⟩


theorem canWin_sound {hand : List MahjongTile} (hlegal : ∀ t ∈ hand, t.legal)
    (h : canWin hand = some true) : hand.length = 14 ∧ Complete hand := by
  obtain ⟨h14, k, x, h1, h2, h3⟩ := (canWin_true_iff hand).mp h
  refine ⟨h14, ?_⟩
  have hp := removePairAt_perm hand 0 k x x h1 h2
  rw [Nat.zero_add] at hp
  have hRlegal : ∀ t ∈ removePairAt k 0 hand, t.legal := fun t ht =>
    hlegal t (hp.symm.subset (List.mem_cons_of_mem _ (List.mem_cons_of_mem _ ht)))
  obtain ⟨b, hb1, hb2⟩ := canFormMeldSets_correct hRlegal
  rw [h3] at hb1
  obtain ⟨melds, hm, hmp⟩ := hb2.mp (Option.some.inj hb1).symm
  refine ⟨x, melds, ?_, hm, ((hmp.cons x).cons x).trans hp.symm⟩
  have hl := hp.length_eq
  rw [h14, List.length_cons, List.length_cons, ← hmp.length_eq,
    flatten_melds_length melds hm] at hl
  omega

theorem canWin_complete {hand : List MahjongTile} (hsorted : TileSorted hand)
    (hlegal : ∀ t ∈ hand, t.legal) (h : Complete hand) : canWin hand = some true := by
  obtain ⟨x, melds, h4, hm, hp⟩ := h
  have hcount : 2 ≤ hand.count x := by
    rw [← hp.count_eq, List.count_cons_self, List.count_cons_self]
    omega
  obtain ⟨k, h1, h2⟩ := hsorted.adjacent_of_count hcount
  have hp2 := removePairAt_perm hand 0 k x x h1 h2
  rw [Nat.zero_add] at hp2
  have hR : (removePairAt k 0 hand).Perm melds.flatten :=
    ((hp.trans hp2).cons_inv.cons_inv).symm
  have hRlegal : ∀ t ∈ removePairAt k 0 hand, t.legal := fun t ht =>
    hlegal t (hp2.symm.subset (List.mem_cons_of_mem _ (List.mem_cons_of_mem _ ht)))
  obtain ⟨b, hb1, hb2⟩ := canFormMeldSets_correct hRlegal
  have hb : b = true := hb2.mpr ⟨melds, hm, hR.symm⟩
  subst hb
  refine (canWin_true_iff hand).mpr ⟨?_, k, x, h1, h2, hb1⟩
  rw [← hp.length_eq, List.length_cons, List.length_cons, flatten_melds_length melds hm, h4]

theorem canWin_sortTiles_of_true {l l' : List MahjongTile} (hp : l.Perm l')
    (h : canWin l = some true) : canWin (sortTiles l') = some true := by
  obtain ⟨h14, k, x, h1, h2, h3⟩ := (canWin_true_iff l).mp h
  have hp1 := removePairAt_perm l 0 k x x h1 h2
  rw [Nat.zero_add] at hp1
  have hs : (sortTiles l').Perm l := (sortTiles_perm l').trans hp.symm
  have hcount : 2 ≤ (sortTiles l').count x := by
    rw [(hs.trans hp1).count_eq, List.count_cons_self, List.count_cons_self]
    omega
  obtain ⟨k', h1', h2'⟩ := (sortTiles_sorted l').adjacent_of_count hcount
  have hp2 := removePairAt_perm (sortTiles l') 0 k' x x h1' h2'
  rw [Nat.zero_add] at hp2
  have hR : (removePairAt k' 0 (sortTiles l')).Perm (removePairAt k 0 l) :=
    ((hp2.symm.trans (hs.trans hp1)).cons_inv.cons_inv)
  refine (canWin_true_iff _).mpr ⟨by rw [hs.length_eq, h14], k', x, h1', h2', ?_⟩
  rw [canFormMeldSets_perm hR, h3]


/-! ## Drawing and discarding -/

theorem Player.drawTile_hand_perm (p : Player) (t : MahjongTile) :
    (p.drawTile t).hand.Perm (t :: p.hand) :=
  (sortTiles_perm _).trans (List.perm_append_singleton t p.hand)

theorem Player.drawTile_mem (p : Player) (t : MahjongTile) : t ∈ (p.drawTile t).hand :=
  (p.drawTile_hand_perm t).symm.subset (List.mem_cons_self _ _)

theorem MahjongGame.drawTile_concat (g : MahjongGame) {front : List MahjongTile}
    {tile : MahjongTile} {p : Player} (hw : g.wall = front ++ [tile])
    (hp : g.players[g.currentPlayer]? = some p) :
    g.drawTile = some
      { wall := front, players := g.players.set g.currentPlayer (p.drawTile tile),
        currentPlayer := g.currentPlayer, lastDrawnTile := tile } := by
  unfold MahjongGame.drawTile
  rw [hw, hp]
  simp

theorem MahjongGame.drawTile_nil (g : MahjongGame) (hw : g.wall = []) :
    g.drawTile = some g := by
  unfold MahjongGame.drawTile
  rw [hw]
  rfl

theorem exists_concat_of_ne_nil {l : List MahjongTile} (h : l ≠ []) :
    ∃ front tile, l = front ++ [tile] :=
  ⟨l.dropLast, l.getLast h, (List.dropLast_append_getLast h).symm⟩

theorem MahjongGame.discardTile_cases (g : MahjongGame) (p : Player) (index : Nat)
    (hp : g.players[g.currentPlayer]? = some p) (hi : index < p.hand.length) :
    ∃ t, p.hand[index]? = some t ∧
      (g.discardTile index = some (.exited
          { g with
            players :=
              g.players.set g.currentPlayer ⟨p.id, p.hand.eraseIdx index, p.discarded ++ [t]⟩ }) ∨
        g.discardTile index = some (.returned
          { g with
            players :=
              g.players.set g.currentPlayer ⟨p.id, p.hand.eraseIdx index, p.discarded ++ [t]⟩,
            currentPlayer := (g.currentPlayer + 1) % 4 })) := by
  have hcur : g.currentPlayer < g.players.length := by
    by_contra hc
    rw [List.getElem?_eq_none (by omega)] at hp
    cases hp
  refine ⟨p.hand[index], List.getElem?_eq_getElem hi, ?_⟩
  obtain ⟨b, hb⟩ := canWin_total (p.hand.eraseIdx index)
  unfold MahjongGame.discardTile Player.discardTile
  rw [hp]
  simp only [Option.bind_eq_bind, Option.some_bind, List.getElem?_eq_getElem hi,
    Option.pure_def, List.getElem?_set_self hcur, hb]
  cases b
  · right; rfl
  · left; rfl

theorem findIndex_lt {hand : List MahjongTile} {tile : MahjongTile} (h : tile ∈ hand) :
    findIndex hand tile < hand.length :=
  List.findIdx_lt_length_of_exists ⟨tile, h, MahjongTile.eq_iff.mpr rfl⟩

theorem MahjongGame.turn_spec (g : MahjongGame) (hw : g.wall ≠ [])
    (hcur : g.currentPlayer < g.players.length) :
    ∃ res, g.turn = some res ∧ res.state.wall.length + 1 = g.wall.length ∧
      res.state.players.length = g.players.length ∧
      (∀ g', res = .returned g' → g'.currentPlayer = (g.currentPlayer + 1) % 4) := by
  obtain ⟨front, tile, hwall⟩ := exists_concat_of_ne_nil hw
  have hp : g.players[g.currentPlayer]? = some g.players[g.currentPlayer] :=
    List.getElem?_eq_getElem hcur
  have hdraw := g.drawTile_concat hwall hp
  have hmem := (g.players[g.currentPlayer]).drawTile_mem tile
  have hne : (g.players[g.currentPlayer].drawTile tile).hand ≠ [] :=
    List.ne_nil_of_mem hmem
  have hlen : g.wall.length = front.length + 1 := by rw [hwall]; simp
  obtain ⟨t, _, hd⟩ := MahjongGame.discardTile_cases
    { wall := front,
      players := g.players.set g.currentPlayer (g.players[g.currentPlayer].drawTile tile),
      currentPlayer := g.currentPlayer, lastDrawnTile := tile }
    (g.players[g.currentPlayer].drawTile tile)
    (findIndex (g.players[g.currentPlayer].drawTile tile).hand tile)
    (List.getElem?_set_self hcur) (findIndex_lt hmem)
  have hturn : g.turn =
      MahjongGame.discardTile
        { wall := front,
          players := g.players.set g.currentPlayer (g.players[g.currentPlayer].drawTile tile),
          currentPlayer := g.currentPlayer, lastDrawnTile := tile }
        (findIndex (g.players[g.currentPlayer].drawTile tile).hand tile) := by
    unfold MahjongGame.turn
    rw [hdraw]
    simp only [Option.bind_eq_bind, Option.some_bind, List.getElem?_set_self hcur]
    rw [if_pos (by simpa using hne)]
  rw [hturn]
  rcases hd with hd | hd
  · refine ⟨_, hd, ?_, ?_, ?_⟩
    · simp [DiscardResult.state, hlen]
    · simp [DiscardResult.state]
    · intro g' h; cases h
  · refine ⟨_, hd, ?_, ?_, ?_⟩
    · simp [DiscardResult.state, hlen]
    · simp [DiscardResult.state]
    · intro g' h; cases h; rfl

theorem MahjongGame.turn_returned {g g' : MahjongGame} (hw : g.wall ≠ [])
    (h : g.turn = some (.returned g')) :
    g'.currentPlayer = (g.currentPlayer + 1) % 4 := by
  have hcur : g.currentPlayer < g.players.length := by
    by_contra hc
    have hnone : g.players[g.currentPlayer]? = none := List.getElem?_eq_none (by omega)
    obtain ⟨front, tile, hwall⟩ := exists_concat_of_ne_nil hw
    have : g.turn = none := by
      unfold MahjongGame.turn MahjongGame.drawTile
      rw [hwall, hnone]
      simp
    rw [this] at h
    cases h
  obtain ⟨res, h1, _, _, h4⟩ := g.turn_spec hw hcur
  rw [h] at h1
  exact h4 g' (Option.some.inj h1).symm


/-! ## Dealing -/

theorem foldlM_invariant {α β : Type} (f : β → α → Option β) (Q : α → Prop)
    (P : Nat → β → Prop)
    (hstep : ∀ n b a, Q a → P (n + 1) b → ∃ b', f b a = some b' ∧ P n b') :
    ∀ (xs : List α) (n : Nat) (b : β), (∀ a ∈ xs, Q a) → P (n + xs.length) b →
      ∃ b', xs.foldlM f b = some b' ∧ P n b' := by
  intro xs
  induction xs with
  | nil => intro n b _ h; exact ⟨b, rfl, h⟩
  | cons a xs ih =>
    intro n b hQ h
    obtain ⟨b1, h1, h2⟩ := hstep (n + xs.length) b a (hQ a (List.mem_cons_self _ _)) h
    obtain ⟨b2, h3, h4⟩ := ih n b1 (fun x hx => hQ x (List.mem_cons_of_mem _ hx)) h2
    exact ⟨b2, by rw [List.foldlM_cons, h1]; exact h3, h4⟩

theorem dealOne_spec (g : MahjongGame) (p : Nat) (hw : g.wall ≠ [])
    (hp : p < g.players.length) :
    ∃ g', dealOne g p = some g' ∧ g'.wall.length + 1 = g.wall.length ∧
      g'.players.length = g.players.length ∧ g'.currentPlayer = g.currentPlayer := by
  obtain ⟨front, tile, hwall⟩ := exists_concat_of_ne_nil hw
  refine ⟨{ g with players := g.players.set p (g.players[p].drawTile tile), wall := front },
    ?_, ?_, ?_, rfl⟩
  · unfold dealOne
    rw [hwall, List.getElem?_eq_getElem hp]
    simp
  · rw [hwall]; simp
  · simp

theorem dealTiles_spec (g : MahjongGame) (m : Nat) (hp : g.players.length = 4)
    (hw : g.wall.length = 52 + m) :
    ∃ g', dealTiles g = some g' ∧ g'.wall.length = m ∧ g'.players.length = 4 ∧
      g'.currentPlayer = g.currentPlayer := by
  have inner : ∀ (k : Nat) (g1 : MahjongGame),
      (g1.players.length = 4 ∧ g1.wall.length = 4 * (k + 1) + m ∧
        g1.currentPlayer = g.currentPlayer) →
      ∃ g2, (List.range 4).foldlM dealOne g1 = some g2 ∧
        (g2.players.length = 4 ∧ g2.wall.length = 4 * k + m ∧
          g2.currentPlayer = g.currentPlayer) := by
    intro k g1 h1
    refine foldlM_invariant dealOne (fun p => p < 4)
      (fun n g' => g'.players.length = 4 ∧ g'.wall.length = n + (4 * k + m) ∧
        g'.currentPlayer = g.currentPlayer) ?_ (List.range 4) 0 g1
      (fun a ha => List.mem_range.mp ha) ?_ |>.imp (fun g2 h => ⟨h.1, h.2.1, by omega, h.2.2.2⟩)
    · intro n b a ha hb
      obtain ⟨b', e, h1, h2, h3⟩ := dealOne_spec b a
        (by intro e; rw [e] at hb; simp at hb; omega) (by omega)
      exact ⟨b', e, by omega, by omega, by omega⟩
    · refine ⟨h1.1, ?_, h1.2.2⟩
      rw [List.length_range]
      omega
  have outer := foldlM_invariant (fun g1 (_ : Nat) => (List.range 4).foldlM dealOne g1)
    (fun _ => True)
    (fun k g' => g'.players.length = 4 ∧ g'.wall.length = 4 * k + m ∧
      g'.currentPlayer = g.currentPlayer)
    (fun k b _ _ hb => inner k b hb) (List.range 13) 0 g (fun _ _ => trivial)
    (by refine ⟨hp, ?_, rfl⟩; rw [List.length_range]; omega)
  obtain ⟨g', h1, h2, h3, h4⟩ := outer
  exact ⟨g', h1, by omega, h2, h4⟩

set_option maxRecDepth 100000 in
theorem initializeTiles_length : (initializeTiles []).length = 136 := by
  decide

theorem MahjongGame.construct_spec (shuffle : List MahjongTile → List MahjongTile)
    (hshuffle : ∀ l, (shuffle l).Perm l) :
    ∃ g0, MahjongGame.construct shuffle = some g0 ∧ g0.wall.length = 84 ∧
      g0.players.length = 4 ∧ g0.currentPlayer = 0 := by
  unfold MahjongGame.construct
  exact dealTiles_spec _ 84 rfl
    (by simp only [(hshuffle _).length_eq, initializeTiles_length])

/-! ## The loop of `play` -/

theorem MahjongGame.play_spec :
    ∀ (fuel : Nat) (g : MahjongGame), g.wall.length ≤ fuel → g.players.length = 4 →
      g.currentPlayer < 4 →
      ∃ r, MahjongGame.play fuel g = some r ∧
        r.turns + r.final.wall.length = g.wall.length ∧
        (r.ending = .wallExhausted → r.final.wall = []) := by
  intro fuel
  induction fuel with
  | zero =>
    intro g hw _ _
    have : g.wall = [] := List.length_eq_zero.mp (Nat.le_zero.mp hw)
    refine ⟨⟨.wallExhausted, g, 0⟩, ?_, by simp, fun _ => this⟩
    simp [MahjongGame.play, this]
  | succ fuel ih =>
    intro g hw hp hc
    by_cases hnil : g.wall = []
    · refine ⟨⟨.wallExhausted, g, 0⟩, ?_, by simp, fun _ => hnil⟩
      simp [MahjongGame.play, hnil]
    · obtain ⟨res, h1, h2, h3, h4⟩ := g.turn_spec hnil (by omega)
      cases res with
      | exited g1 =>
        refine ⟨⟨.win, g1, 1⟩, ?_, ?_, fun h => by cases h⟩
        · rw [MahjongGame.play, if_neg (by simpa using hnil), h1]
          rfl
        · simp only [DiscardResult.state] at h2
          simp only
          omega
      | returned g1 =>
        simp only [DiscardResult.state] at h2 h3
        have hcur := h4 g1 rfl
        obtain ⟨r, hr1, hr2, hr3⟩ := ih g1 (by omega) (by omega) (by omega)
        refine ⟨{ r with turns := r.turns + 1 }, ?_, ?_, hr3⟩
        · rw [MahjongGame.play, if_neg (by simpa using hnil), h1]
          simp only [Option.bind_eq_bind, Option.some_bind, hr1]
          rfl
        · simp only
          omega

theorem MahjongGame.play_fuel_succ :
    ∀ (fuel : Nat) (g : MahjongGame) (r : PlayResult),
      MahjongGame.play fuel g = some r → MahjongGame.play (fuel + 1) g = some r := by
  intro fuel
  induction fuel with
  | zero =>
    intro g r h
    by_cases hnil : g.wall = []
    · simpa [MahjongGame.play, hnil] using h
    · simp [MahjongGame.play, hnil] at h
  | succ fuel ih =>
    intro g r h
    by_cases hnil : g.wall = []
    · simpa [MahjongGame.play, hnil] using h
    · rw [MahjongGame.play, if_neg (by simpa using hnil)] at h ⊢
      cases hturn : g.turn with
      | none => rw [hturn] at h; simp at h
      | some res =>
        rw [hturn] at h
        cases res with
        | exited g1 => exact h
        | returned g1 =>
          simp only [Option.bind_eq_bind, Option.some_bind] at h ⊢
          cases hrec : MahjongGame.play fuel g1 with
          | none => rw [hrec] at h; simp at h
          | some r1 =>
            rw [hrec] at h
            rw [ih g1 r1 hrec]
            exact h

theorem MahjongGame.play_fuel_le {fuel fuel' : Nat} (hle : fuel ≤ fuel') {g : MahjongGame}
    {r : PlayResult} (h : MahjongGame.play fuel g = some r) :
    MahjongGame.play fuel' g = some r := by
  induction hle with
  | refl => exact h
  | step _ ih => exact MahjongGame.play_fuel_succ _ g r ih

theorem MahjongGame.turns_currentPlayer :
    ∀ (k : Nat) (g g' : MahjongGame), g.currentPlayer < 4 →
      MahjongGame.turns k g = some g' →
      g'.currentPlayer = (g.currentPlayer + k) % 4 := by
  intro k
  induction k with
  | zero =>
    intro g g' hc h
    simp only [MahjongGame.turns, Option.some.injEq] at h
    subst h
    omega
  | succ k ih =>
    intro g g' hc h
    by_cases hnil : g.wall = []
    · simp [MahjongGame.turns, hnil] at h
    · rw [MahjongGame.turns, if_neg (by simpa using hnil)] at h
      cases hturn : g.turn with
      | none => rw [hturn] at h; simp at h
      | some res =>
        rw [hturn] at h
        cases res with
        | exited g1 => simp at h
        | returned g1 =>
          have h1 := MahjongGame.turn_returned hnil hturn
          have h2 := ih g1 g' (by omega) h
          omega


/-! ## Orders that keep equal tiles together -/

theorem TileSorted.pairsAdjacent {l : List MahjongTile} (h : TileSorted l) :
    PairsAdjacent l := by
  intro x _ hc
  obtain ⟨k, h1, h2⟩ := h.adjacent_of_count hc
  refine ⟨k, ?_, h1, h2⟩
  by_contra hk
  rw [List.getElem?_eq_none (by omega)] at h1
  cases h1

theorem canWin_true_of_perm_adjacent {l l' : List MahjongTile} (hp : l.Perm l')
    (hadj : PairsAdjacent l') (h : canWin l = some true) : canWin l' = some true := by
  obtain ⟨h14, k, x, h1, h2, h3⟩ := (canWin_true_iff l).mp h
  have hp1 := removePairAt_perm l 0 k x x h1 h2
  rw [Nat.zero_add] at hp1
  have hcount : 2 ≤ l'.count x := by
    rw [← hp.count_eq, hp1.count_eq, List.count_cons_self, List.count_cons_self]
    omega
  have hmem : x ∈ l' := List.count_pos_iff.mp (by omega)
  obtain ⟨k', _, h1', h2'⟩ := hadj x hmem hcount
  have hp2 := removePairAt_perm l' 0 k' x x h1' h2'
  rw [Nat.zero_add] at hp2
  have hR : (removePairAt k' 0 l').Perm (removePairAt k 0 l) :=
    ((hp2.symm.trans (hp.symm.trans hp1)).cons_inv.cons_inv)
  refine (canWin_true_iff _).mpr ⟨by rw [← hp.length_eq, h14], k', x, h1', h2', ?_⟩
  rw [canFormMeldSets_perm hR, h3]

theorem canWin_eq_of_perm_adjacent {l l' : List MahjongTile} (hp : l.Perm l')
    (hl : PairsAdjacent l) (hl' : PairsAdjacent l') : canWin l = canWin l' := by
  obtain ⟨b, hb⟩ := canWin_total l
  obtain ⟨b', hb'⟩ := canWin_total l'
  cases b with
  | true => rw [hb, canWin_true_of_perm_adjacent hp hl' hb]
  | false =>
    cases b' with
    | false => rw [hb, hb']
    | true =>
      have := canWin_true_of_perm_adjacent hp.symm hl hb'
      rw [hb] at this
      cases this

/-! ## The completion evaluator: verified claims -/

/-- C1: on a 14-tile hand of legal tiles presented in tile order, `canWin`
returns true exactly when the hand splits into one pair of identical tiles and
four melds (triplets or runs of a numbered suit), and false exactly when it
does not. -/
theorem canWin_iff_complete (hand : List MahjongTile) (hlen : hand.length = 14)
    (hsorted : TileSorted hand) (hlegal : ∀ t ∈ hand, t.legal) :
    (canWin hand = some true ↔ Complete hand) ∧
      (canWin hand = some false ↔ ¬ Complete hand) := by
  have hloop : canWin hand = canWinLoop hand 13 0 := by
    unfold canWin
    rw [if_neg (by omega), hlen]
  have htrue : canWin hand = some true ↔ Complete hand :=
    ⟨fun h => (canWin_sound hlegal h).2, canWin_complete hsorted hlegal⟩
  refine ⟨htrue, ?_⟩
  obtain ⟨b, hb⟩ := canWinLoop_total hand 13 0 (by omega)
  rw [← htrue, hloop, hb]
  cases b <;> simp

/-- Witness of C1: the sample hand is accepted, hence complete. -/
theorem canWin_iff_complete_witness :
    winningHand.length = 14 ∧ TileSorted winningHand ∧ Complete winningHand :=
  ⟨by decide, by decide,
    (canWin_iff_complete winningHand (by decide) (by decide) (by decide)).1.mp (by decide)⟩

/-- C2: on a list of legal tiles of any length and in any order,
`canFormMeldSets` returns true exactly when the tiles split into melds and
false exactly when they do not; it returns true on the empty list and false
when the length is not a multiple of three. -/
theorem canFormMeldSets_iff_meldPartition (tiles : List MahjongTile)
    (hlegal : ∀ t ∈ tiles, t.legal) :
    (canFormMeldSets tiles = some true ↔ MeldPartition tiles) ∧
      (canFormMeldSets tiles = some false ↔ ¬ MeldPartition tiles) ∧
      canFormMeldSets [] = some true ∧
      (tiles.length % 3 ≠ 0 → canFormMeldSets tiles = some false) := by
  obtain ⟨b, hb1, hb2⟩ := canFormMeldSets_correct hlegal
  have hfalse : canFormMeldSets tiles = some false ↔ ¬ MeldPartition tiles := by
    rw [← hb2, hb1]; cases b <;> simp
  refine ⟨by rw [← hb2, hb1]; simp, hfalse, rfl, ?_⟩
  intro hmod
  exact hfalse.mpr (fun h => hmod h.length_mod)

/-- Witness of C2: three unordered tiles of a run are accepted, and a list of
four tiles is rejected. -/
theorem canFormMeldSets_iff_meldPartition_witness :
    MeldPartition [character 2, character 0, character 1] ∧
      canFormMeldSets [character 2, character 0, character 1, character 1] = some false :=
  ⟨(canFormMeldSets_iff_meldPartition [character 2, character 0, character 1]
      (by decide)).1.mp (by decide),
    (canFormMeldSets_iff_meldPartition [character 2, character 0, character 1, character 1]
      (by decide)).2.2.2 (by decide)⟩

/-- C3 as stated fails: two orders of the same fourteen tiles on which
`canWin` answers differently. -/
theorem canWin_not_permutation_invariant :
    scatteredHand.Perm winningHand ∧ canWin winningHand = some true ∧
      canWin scatteredHand = some false :=
  ⟨by decide, by decide, by decide⟩

/-- C3, amended: `canWin` is invariant under every reordering that keeps equal
tiles together. For two tile lists that are permutations of each other and in
each of which every tile held at least twice has two copies at neighbouring
positions, `canWin` returns the same result on both; every list in tile order
is such a list, so this result is the one `canWin` returns on the tile-ordered
arrangement, the form in which `Player::drawTile` keeps a hand; and when
`canWin` accepts the tiles in any order at all, it accepts them in these
orders. -/
theorem canWin_permutation_invariant_of_adjacent (l l' : List MahjongTile) (h : l.Perm l')
    (hl : PairsAdjacent l) (hl' : PairsAdjacent l') :
    canWin l = canWin l' ∧ canWin l = canWin (sortTiles l) ∧
      PairsAdjacent (sortTiles l) ∧
      (∀ m : List MahjongTile, m.Perm l → canWin m = some true → canWin l = some true) :=
  ⟨canWin_eq_of_perm_adjacent h hl hl',
    canWin_eq_of_perm_adjacent (sortTiles_perm l).symm hl (sortTiles_sorted l).pairsAdjacent,
    (sortTiles_sorted l).pairsAdjacent,
    fun _ hm hwin => canWin_true_of_perm_adjacent hm hl hwin⟩

/-- Witness of C3 amended: the sample hand in decreasing order, which is not
in tile order, keeps equal tiles together and gets the answer of the hand in
tile order; the scattered order of the counterexample does not keep them
together. -/
theorem canWin_permutation_invariant_of_adjacent_witness :
    canWin winningHand.reverse = canWin winningHand ∧
      ¬ TileSorted winningHand.reverse ∧ ¬ PairsAdjacent scatteredHand :=
  ⟨(canWin_permutation_invariant_of_adjacent winningHand.reverse winningHand
      (by decide) (by decide) (by decide)).1,
    by decide, by decide⟩

/-- C5: on a tile list whose length is not 14, the empty one included,
`canWin` returns false and does not fail. -/
theorem canWin_false_of_length_ne (hand : List MahjongTile) (h : hand.length ≠ 14) :
    canWin hand = some false := by
  unfold canWin
  rw [if_pos h]

/-- Witness of C5: the empty hand and a hand of three tiles. -/
theorem canWin_false_of_length_ne_witness :
    canWin [] = some false ∧
      canWin [character 0, character 0, character 0] = some false :=
  ⟨canWin_false_of_length_ne [] (by decide),
    canWin_false_of_length_ne [character 0, character 0, character 0] (by decide)⟩

/-- C6: `canFormMeldSets` and `canWin` are total. On every tile list the
recursion returns a result as soon as the depth bound is at least the length
of the list, and always the same one; both recursive calls are on strictly
shorter lists; no index is out of range; `canWin` returns a result. -/
theorem canFormMeldSets_canWin_total (tiles : List MahjongTile) :
    (∃ b, canFormMeldSets tiles = some b ∧
        ∀ fuel, tiles.length ≤ fuel → canFormMeldSetsFuel fuel tiles = some b) ∧
      (∀ newTiles, tripletRest (sortTiles tiles) = some (some newTiles) →
        newTiles.length < tiles.length) ∧
      (∀ newTiles, runRest (sortTiles tiles) = some (some newTiles) →
        newTiles.length < tiles.length) ∧
      (tiles ≠ [] → ∃ tr rr, tripletRest (sortTiles tiles) = some tr ∧
        runRest (sortTiles tiles) = some rr) ∧
      ∃ b, canWin tiles = some b := by
  refine ⟨?_, ?_, ?_, ?_, canWin_total tiles⟩
  · obtain ⟨b, hb⟩ := canFormMeldSets_total tiles
    exact ⟨b, hb, fun fuel hf => by rw [canFormMeldSetsFuel_eq hf, hb]⟩
  · intro nt h
    obtain ⟨tr, htr, hlen⟩ := tripletRest_total (sortTiles tiles)
    rw [htr] at h
    have := hlen nt (Option.some.inj h)
    rw [sortTiles_length] at this
    omega
  · intro nt h
    by_cases hnil : tiles = []
    · subst hnil
      simp [sortTiles, runRest] at h
    · obtain ⟨rr, hrr, hlen⟩ := runRest_total (sortTiles_ne_nil hnil)
      rw [hrr] at h
      have := hlen nt (Option.some.inj h)
      rw [sortTiles_length] at this
      exact this
  · intro hnil
    obtain ⟨tr, htr, _⟩ := tripletRest_total (sortTiles tiles)
    obtain ⟨rr, hrr, _⟩ := runRest_total (sortTiles_ne_nil hnil)
    exact ⟨tr, rr, htr, hrr⟩

/-- Witness of C6 on the scattered sample hand: a depth bound of 20 gives the
result of `canFormMeldSets`, which is a result indeed, and neither branch reads
out of range. -/
theorem canFormMeldSets_canWin_total_witness :
    canFormMeldSetsFuel 20 scatteredHand = canFormMeldSets scatteredHand ∧
      (canFormMeldSets scatteredHand).isSome = true ∧
      (tripletRest (sortTiles scatteredHand)).isSome = true ∧
      (runRest (sortTiles scatteredHand)).isSome = true := by
  obtain ⟨⟨b, hb1, hb2⟩, _, _, hbranch, _⟩ := canFormMeldSets_canWin_total scatteredHand
  obtain ⟨tr, rr, htr, hrr⟩ := hbranch (by decide)
  rw [hb2 20 (by decide), hb1, htr, hrr]
  exact ⟨rfl, rfl, rfl, rfl⟩


/-! ## The game: verified claims -/

set_option maxRecDepth 1000000 in
/-- C4, evaluated at the failing input: after the constructor has dealt
`stackedWall` and the first player has drawn, that player holds the fourteen
tiles of `winningHand`, on which `canWin` returns true; still every discard of
a valid index, the one chosen by `play` included, returns with the turn passed
to the next player instead of ending the game. -/
theorem discardTile_misses_win :
    stackedWall.Perm (initializeTiles []) ∧
      (do
        let g0 ← MahjongGame.construct stackedShuffle
        let g1 ← g0.drawTile
        let active ← g1.players[g1.currentPlayer]?
        let won ← canWin active.hand
        let res ← g1.discardTile (findIndex active.hand g1.lastDrawnTile)
        pure (active.hand, won, res.isExit, res.state.currentPlayer))
        = some (winningHand, true, false, 1) ∧
      (do
        let g0 ← MahjongGame.construct stackedShuffle
        let g1 ← g0.drawTile
        (List.range 14).mapM (fun index => (g1.discardTile index).map DiscardResult.isExit))
        = some (List.replicate 14 false) := by
  refine ⟨by decide, by decide, by decide⟩

set_option maxRecDepth 1000000 in
theorem legal_mem_initializeTiles (t : MahjongTile) (h : t.legal) :
    t ∈ initializeTiles [] := by
  obtain ⟨s, r⟩ := t
  obtain ⟨h0, h1⟩ := h
  cases s <;> simp only at h0 h1 <;> interval_cases r <;> decide

set_option maxRecDepth 1000000 in
theorem count_initializeTiles_of_mem :
    ∀ t ∈ initializeTiles [], (initializeTiles []).count t = 4 := by
  decide

set_option maxRecDepth 1000000 in
theorem legal_of_mem_initializeTiles : ∀ t ∈ initializeTiles [], t.legal := by
  decide

/-- C7: on an empty wall, `initializeTiles` produces 136 tiles, every legal
tile occurs exactly four times among them, and every tile produced is
legal. -/
theorem initializeTiles_wall :
    (initializeTiles []).length = 136 ∧
      (∀ t : MahjongTile, t.legal → (initializeTiles []).count t = 4) ∧
      (∀ t ∈ initializeTiles [], t.legal) :=
  ⟨initializeTiles_length,
    fun t h => count_initializeTiles_of_mem t (legal_mem_initializeTiles t h),
    legal_of_mem_initializeTiles⟩

/-- Witness of C7: the north wind occurs four times, and the tile of rank 9
of a numbered suit, which is not legal, does not occur. -/
theorem initializeTiles_wall_witness :
    (initializeTiles []).count (wind 3) = 4 ∧ character 9 ∉ initializeTiles [] :=
  ⟨initializeTiles_wall.2.1 (wind 3) (by decide),
    fun h => absurd (initializeTiles_wall.2.2 (character 9) h) (by decide)⟩


theorem MahjongGame.discardTile_returned {g g' : MahjongGame} {index : Nat}
    (h : g.discardTile index = some (.returned g')) :
    g'.currentPlayer = (g.currentPlayer + 1) % 4 := by
  cases hp : g.players[g.currentPlayer]? with
  | none => simp [MahjongGame.discardTile, hp] at h
  | some p =>
    by_cases hi : index < p.hand.length
    · obtain ⟨t, _, hd | hd⟩ := g.discardTile_cases p index hp hi
      · rw [hd] at h; cases h
      · rw [hd] at h; cases h; rfl
    · have : p.hand[index]? = none := List.getElem?_eq_none (by omega)
      simp [MahjongGame.discardTile, Player.discardTile, hp, this] at h

/-- C8: on a wall that ends with `tile`, `drawTile` removes exactly that last
tile, so the wall is one shorter, records it as `lastDrawnTile` and puts it
into the hand of the active player, whose hand becomes the sorted old hand
plus the tile; nothing else changes. On an empty wall the state is left as it
was. -/
theorem drawTile_spec (g : MahjongGame) (hcur : g.currentPlayer < g.players.length) :
    (∀ front tile, g.wall = front ++ [tile] →
      ∃ g' p p', g.drawTile = some g' ∧ g'.wall = front ∧
        g'.wall.length + 1 = g.wall.length ∧ g'.lastDrawnTile = tile ∧
        g'.currentPlayer = g.currentPlayer ∧
        g.players[g.currentPlayer]? = some p ∧ g'.players[g.currentPlayer]? = some p' ∧
        p'.hand = sortTiles (p.hand ++ [tile]) ∧ p'.hand.Perm (tile :: p.hand) ∧
        p'.discarded = p.discarded ∧ p'.id = p.id ∧
        g'.players.length = g.players.length ∧
        ∀ i, i ≠ g.currentPlayer → g'.players[i]? = g.players[i]?) ∧
      (g.wall = [] → g.drawTile = some g) := by
  refine ⟨?_, g.drawTile_nil⟩
  intro front tile hw
  have hp : g.players[g.currentPlayer]? = some g.players[g.currentPlayer] :=
    List.getElem?_eq_getElem hcur
  refine ⟨_, g.players[g.currentPlayer], g.players[g.currentPlayer].drawTile tile,
    g.drawTile_concat hw hp, rfl, ?_, rfl, rfl, hp, ?_, rfl,
    Player.drawTile_hand_perm _ _, rfl, rfl, ?_, ?_⟩
  · rw [hw]; simp
  · exact List.getElem?_set_self hcur
  · simp
  · intro i hi
    exact List.getElem?_set_ne (Ne.symm hi)

/-- Witness of C8 on the sample state, whose wall ends with the tile of rank 1:
the wall keeps its other tile and the hand of the first player gains rank 1 in
its place. -/
theorem drawTile_spec_witness :
    sampleGame.drawTile.map (fun g => (g.wall, g.lastDrawnTile)) =
        some ([character 3], character 1) ∧
      (sampleGame.drawTile.bind (fun g => g.players[0]?)).map Player.hand =
        some [character 0, character 1, character 2] := by
  obtain ⟨g', p, p', h1, h2, _, h4, _, h6, h7, h8, _⟩ :=
    (drawTile_spec sampleGame (by decide)).1 [character 3] (character 1) rfl
  have hp : p = ⟨1, [character 0, character 2], []⟩ := by
    have : sampleGame.players[sampleGame.currentPlayer]? =
        some ⟨1, [character 0, character 2], []⟩ := rfl
    rw [this] at h6
    exact (Option.some.inj h6).symm
  have h7' : g'.players[0]? = some p' := h7
  rw [h1, Option.map_some', Option.some_bind, h7', Option.map_some', h2, h4, h8, hp]
  exact ⟨rfl, by decide⟩

/-- C9: every call of `discardTile` that returns passes the turn to player
`(currentPlayer + 1) mod 4`; the constructed game starts with player 0, and
after `k` iterations of the loop of `play` that did not end the game the
active player is `k mod 4`. -/
theorem roundRobin (shuffle : List MahjongTile → List MahjongTile)
    (hshuffle : ∀ l, (shuffle l).Perm l) :
    (∀ (g g' : MahjongGame) (index : Nat), g.discardTile index = some (.returned g') →
        g'.currentPlayer = (g.currentPlayer + 1) % 4) ∧
      ∃ g0, MahjongGame.construct shuffle = some g0 ∧ g0.currentPlayer = 0 ∧
        ∀ (k : Nat) (g : MahjongGame), MahjongGame.turns k g0 = some g →
          g.currentPlayer = k % 4 := by
  refine ⟨fun g g' index h => MahjongGame.discardTile_returned h, ?_⟩
  obtain ⟨g0, h0, _, _, hc⟩ := MahjongGame.construct_spec shuffle hshuffle
  refine ⟨g0, h0, hc, ?_⟩
  intro k g hk
  have := MahjongGame.turns_currentPlayer k g0 g (by omega) hk
  rw [hc, Nat.zero_add] at this
  exact this

set_option maxRecDepth 1000000 in
/-- Witness of C9: with the wall left unshuffled, six iterations run without a
win and leave player `6 mod 4` active. -/
theorem roundRobin_witness :
    ((MahjongGame.construct id).bind (MahjongGame.turns 6)).map MahjongGame.currentPlayer =
      some 2 := by
  obtain ⟨g0, h0, _, hk⟩ := (roundRobin id (fun l => List.Perm.refl l)).2
  have hs : ((MahjongGame.construct id).bind (MahjongGame.turns 6)).isSome = true := by
    decide
  obtain ⟨g, hg⟩ := Option.isSome_iff_exists.mp hs
  rw [hg, Option.map_some']
  rw [h0, Option.some_bind] at hg
  rw [hk 6 g hg]

/-- C10: whatever the shuffle, the constructor leaves 84 tiles in the wall and
the loop of `play` ends, by a win or with the wall exhausted, after at most 84
iterations, which is within 34 rounds of four turns; every iteration takes
exactly one tile from the wall. -/
theorem play_terminates (shuffle : List MahjongTile → List MahjongTile)
    (hshuffle : ∀ l, (shuffle l).Perm l) :
    ∃ g0 r, MahjongGame.construct shuffle = some g0 ∧ g0.wall.length = 84 ∧
      (∀ fuel, 84 ≤ fuel → MahjongGame.play fuel g0 = some r) ∧
      r.turns ≤ 84 ∧ r.turns ≤ 4 * (136 / 4) ∧
      r.turns + r.final.wall.length = 84 ∧
      (r.ending = .win ∨ (r.ending = .wallExhausted ∧ r.final.wall = [])) := by
  obtain ⟨g0, h0, hw, hp, hc⟩ := MahjongGame.construct_spec shuffle hshuffle
  obtain ⟨r, hr1, hr2, hr3⟩ := MahjongGame.play_spec 84 g0 (by omega) hp (by omega)
  refine ⟨g0, r, h0, hw, fun fuel hf => MahjongGame.play_fuel_le hf hr1, by omega, by omega,
    by omega, ?_⟩
  cases he : r.ending with
  | win => exact Or.inl rfl
  | wallExhausted => exact Or.inr ⟨rfl, hr3 he⟩

/-- Witness of C10 for the wall left unshuffled. -/
theorem play_terminates_witness :
    ((MahjongGame.construct id).bind (MahjongGame.play 84)).map
        (fun r => decide (r.turns ≤ 84 ∧ r.turns + r.final.wall.length = 84)) = some true ∧
      ((MahjongGame.construct id).bind (MahjongGame.play 1000)).isSome = true := by
  obtain ⟨g0, r, h1, _, h3, h4, _, h6, _⟩ := play_terminates id (fun l => List.Perm.refl l)
  rw [h1, Option.some_bind, Option.some_bind, h3 84 (Nat.le_refl _), h3 1000 (by omega),
    Option.map_some']
  exact ⟨by rw [decide_eq_true (And.intro h4 h6)], rfl⟩

/-! ## The completion evaluator: further verified claims -/

theorem pairAndTriplets_complete (x t1 t2 t3 t4 : MahjongTile) :
    Complete (pairAndTriplets x t1 t2 t3 t4) :=
  ⟨x, [[t1, t1, t1], [t2, t2, t2], [t3, t3, t3], [t4, t4, t4]], rfl,
    by
      intro m hm
      simp only [List.mem_cons, List.mem_singleton, List.not_mem_nil, or_false] at hm
      rcases hm with rfl | rfl | rfl | rfl <;> exact Or.inl ⟨_, rfl⟩,
    List.Perm.refl _⟩

theorem pairAndRuns_complete (x : MahjongTile) (s1 : Suit) (r1 : Int) (s2 : Suit) (r2 : Int)
    (s3 : Suit) (r3 : Int) (s4 : Suit) (r4 : Int) (h1 : s1.numbered) (h2 : s2.numbered)
    (h3 : s3.numbered) (h4 : s4.numbered) :
    Complete (pairAndRuns x s1 r1 s2 r2 s3 r3 s4 r4) :=
  ⟨x, [runFrom s1 r1, runFrom s2 r2, runFrom s3 r3, runFrom s4 r4], rfl,
    by
      intro m hm
      simp only [List.mem_cons, List.mem_singleton, List.not_mem_nil, or_false] at hm
      rcases hm with rfl | rfl | rfl | rfl
      · exact Or.inr ⟨s1, r1, h1, rfl⟩
      · exact Or.inr ⟨s2, r2, h2, rfl⟩
      · exact Or.inr ⟨s3, r3, h3, rfl⟩
      · exact Or.inr ⟨s4, r4, h4, rfl⟩,
    by simp [pairAndRuns]⟩

theorem complete_of_perm {l l' : List MahjongTile} (hp : l.Perm l') (h : Complete l) :
    Complete l' := by
  obtain ⟨x, melds, h4, hm, hperm⟩ := h
  exact ⟨x, melds, h4, hm, hperm.trans hp⟩

theorem runFrom_legal {s : Suit} {r : Int} (hs : s.numbered) (h0 : 0 ≤ r) (h6 : r ≤ 6) :
    ∀ t ∈ runFrom s r, t.legal := by
  intro t ht
  simp only [runFrom, List.mem_cons, List.mem_singleton, List.not_mem_nil, or_false] at ht
  obtain ⟨hw, hd⟩ := hs
  rcases ht with rfl | rfl | rfl <;> cases s <;>
    simp_all [MahjongTile.legal] <;> omega

/-- C11: a pair plus four triplets is complete. For a legal tile `x` and four
legal tiles `t1`..`t4`, pairwise distinct and different from `x`, `canWin`
returns true on the hand in tile order made of two `x` and three of each
`ti`. -/
theorem canWin_pair_and_triplets (x t1 t2 t3 t4 : MahjongTile) (hx : x.legal)
    (h1 : t1.legal) (h2 : t2.legal) (h3 : t3.legal) (h4 : t4.legal)
    (_hdistinct : [x, t1, t2, t3, t4].Nodup) :
    canWin (sortTiles (pairAndTriplets x t1 t2 t3 t4)) = some true := by
  apply canWin_complete (sortTiles_sorted _)
  · intro t ht
    have := (sortTiles_perm _).subset ht
    simp only [pairAndTriplets, List.mem_cons, List.mem_singleton, List.not_mem_nil,
      or_false] at this
    rcases this with rfl | rfl | rfl | rfl | rfl | rfl | rfl | rfl | rfl | rfl | rfl | rfl |
      rfl | rfl <;> assumption
  · exact complete_of_perm (sortTiles_perm _).symm (pairAndTriplets_complete x t1 t2 t3 t4)

/-- Witness of C11: the pair of rank 4 in the first suit with triplets of rank
0 in the first suit, of rank 8 in the second suit, of east winds and of red
dragons. -/
theorem canWin_pair_and_triplets_witness :
    canWin (sortTiles
      (pairAndTriplets (character 4) (character 0) (bamboo 8) (wind 0) (dragon 0))) =
      some true :=
  canWin_pair_and_triplets (character 4) (character 0) (bamboo 8) (wind 0) (dragon 0)
    (by decide) (by decide) (by decide) (by decide) (by decide) (by decide)

/-- C12: a pair plus four runs is complete. For a legal tile `x` and four
runs, each of three consecutive ranks `r`, `r + 1`, `r + 2` with `0 ≤ r ≤ 6`
in a numbered suit, `canWin` returns true on the hand in tile order made of
two `x` and the twelve tiles of the runs. -/
theorem canWin_pair_and_runs (x : MahjongTile) (s1 : Suit) (r1 : Int) (s2 : Suit) (r2 : Int)
    (s3 : Suit) (r3 : Int) (s4 : Suit) (r4 : Int) (hx : x.legal)
    (h1 : s1.numbered ∧ 0 ≤ r1 ∧ r1 ≤ 6) (h2 : s2.numbered ∧ 0 ≤ r2 ∧ r2 ≤ 6)
    (h3 : s3.numbered ∧ 0 ≤ r3 ∧ r3 ≤ 6) (h4 : s4.numbered ∧ 0 ≤ r4 ∧ r4 ≤ 6) :
    canWin (sortTiles (pairAndRuns x s1 r1 s2 r2 s3 r3 s4 r4)) = some true := by
  apply canWin_complete (sortTiles_sorted _)
  · intro t ht
    have := (sortTiles_perm _).subset ht
    simp only [pairAndRuns, List.mem_cons, List.mem_append] at this
    rcases this with rfl | rfl | ((h | h) | h) | h
    · exact hx
    · exact hx
    · exact runFrom_legal h1.1 h1.2.1 h1.2.2 t h
    · exact runFrom_legal h2.1 h2.2.1 h2.2.2 t h
    · exact runFrom_legal h3.1 h3.2.1 h3.2.2 t h
    · exact runFrom_legal h4.1 h4.2.1 h4.2.2 t h
  · exact complete_of_perm (sortTiles_perm _).symm
      (pairAndRuns_complete x s1 r1 s2 r2 s3 r3 s4 r4 h1.1 h2.1 h3.1 h4.1)

/-- Witness of C12: the pair of white dragons with the runs 0-1-2 and 3-4-5 of
the first suit, 6-7-8 of the second and 0-1-2 of the third. -/
theorem canWin_pair_and_runs_witness :
    canWin (sortTiles (pairAndRuns (dragon 2) .CHARACTER 0 .CHARACTER 3 .BAMBOO 6 .DOT 0)) =
      some true :=
  canWin_pair_and_runs (dragon 2) .CHARACTER 0 .CHARACTER 3 .BAMBOO 6 .DOT 0
    (by decide) (by decide) (by decide) (by decide) (by decide)

/-- C13: multiplicity is tracked by count. The hand `quadHand` is in tile
order, legal, of 14 tiles, and holds rank 4 of the first suit exactly four
times; `canWin` accepts it: the pair found at positions 0 and 1 takes two of
the copies, the twelve tiles left still hold two, no triplet applies, and the
run branch of `canFormMeldSets` takes one copy in each of two successive
runs. The hand splits accordingly into that pair, two equal runs and two
triplets. -/
theorem canWin_four_copies :
    TileSorted quadHand ∧ (∀ t ∈ quadHand, t.legal) ∧ quadHand.length = 14 ∧
      quadHand.count (character 4) = 4 ∧
      canWin quadHand = some true ∧
      quadHand[0]? = some (character 4) ∧ quadHand[1]? = some (character 4) ∧
      removePairAt 0 0 quadHand =
        [character 4, character 4, character 5, character 5, character 6, character 6,
          wind 0, wind 0, wind 0, dragon 0, dragon 0, dragon 0] ∧
      canFormMeldSets (removePairAt 0 0 quadHand) = some true ∧
      tripletRest (removePairAt 0 0 quadHand) = some none ∧
      runRest (removePairAt 0 0 quadHand) =
        some (some [character 4, character 5, character 6,
          wind 0, wind 0, wind 0, dragon 0, dragon 0, dragon 0]) ∧
      runRest [character 4, character 5, character 6,
          wind 0, wind 0, wind 0, dragon 0, dragon 0, dragon 0] =
        some (some [wind 0, wind 0, wind 0, dragon 0, dragon 0, dragon 0]) ∧
      (character 4 :: character 4 ::
        [runFrom .CHARACTER 4, runFrom .CHARACTER 4, [wind 0, wind 0, wind 0],
          [dragon 0, dragon 0, dragon 0]].flatten).Perm quadHand := by
  refine ⟨by decide, by decide, by decide, by decide, by decide, by decide, by decide,
    by decide, by decide, by decide, by decide, by decide, by decide⟩

theorem count_le_of_mem_melds {melds : List (List MahjongTile)} {m : List MahjongTile}
    (hm : m ∈ melds) (t : MahjongTile) : m.count t ≤ melds.flatten.count t := by
  obtain ⟨pre, post, rfl⟩ := List.append_of_mem hm
  simp only [List.flatten_append, List.flatten_cons, List.count_append]
  omega

theorem honor_once_not_complete {hand : List MahjongTile} {h : MahjongTile}
    (hh : ¬ h.suit.numbered) (hc : hand.count h = 1) : ¬ Complete hand := by
  rintro ⟨x, melds, _, hm, hp⟩
  have hcount : (x :: x :: melds.flatten).count h = 1 := by rw [hp.count_eq, hc]
  by_cases hx : x = h
  · subst hx
    rw [List.count_cons_self, List.count_cons_self] at hcount
    omega
  · rw [List.count_cons_of_ne (fun e => hx e.symm), List.count_cons_of_ne (fun e => hx e.symm)]
      at hcount
    have hmem : h ∈ melds.flatten := List.count_pos_iff.mp (by omega)
    obtain ⟨m, hmm, hhm⟩ := List.mem_flatten.mp hmem
    have hle := count_le_of_mem_melds hmm h
    rcases hm m hmm with ⟨t, rfl⟩ | ⟨s, r, hs, rfl⟩
    · have : t = h := by simpa [eq_comm] using hhm
      subst this
      simp only [List.count_cons_self, List.count_nil] at hle
      omega
    · simp only [List.mem_cons, List.mem_singleton, List.not_mem_nil, or_false] at hhm
      rcases hhm with rfl | rfl | rfl <;> exact hh hs

/-- C14: wind tiles take no part in a run. A hand of 14 legal tiles, in any
order, that holds exactly one east, one south and one west wind is rejected by
`canWin`. -/
theorem canWin_near_run_of_winds (hand : List MahjongTile) (_hlen : hand.length = 14)
    (hlegal : ∀ t ∈ hand, t.legal) (heast : hand.count (wind 0) = 1)
    (_hsouth : hand.count (wind 1) = 1) (_hwest : hand.count (wind 2) = 1) :
    canWin hand = some false := by
  obtain ⟨b, hb⟩ := canWin_total hand
  cases b with
  | false => exact hb
  | true =>
    exact absurd (canWin_sound hlegal hb).2
      (honor_once_not_complete (by decide) heast)

/-- Witness of C14: a pair, three triplets of numbered tiles and the east,
south and west winds, in tile order and reversed. -/
theorem canWin_near_run_of_winds_witness :
    canWin nearRunHand = some false ∧ canWin nearRunHand.reverse = some false :=
  ⟨canWin_near_run_of_winds nearRunHand (by decide) (by decide) (by decide) (by decide)
      (by decide),
    canWin_near_run_of_winds nearRunHand.reverse (by decide) (by decide) (by decide)
      (by decide) (by decide)⟩

/-- C15: a hand of 14 tiles, in any order, in which every tile value occurs
once is rejected by `canWin`. -/
theorem canWin_all_distinct (hand : List MahjongTile) (_hlen : hand.length = 14)
    (hnodup : hand.Nodup) : canWin hand = some false := by
  obtain ⟨b, hb⟩ := canWin_total hand
  cases b with
  | false => exact hb
  | true =>
    exfalso
    obtain ⟨_, k, x, h1, h2, _⟩ := (canWin_true_iff hand).mp hb
    have hk1 : k + 1 < hand.length := by
      by_contra hc
      rw [List.getElem?_eq_none (by omega)] at h2
      cases h2
    have e1 : hand[k] = x := by
      rw [List.getElem?_eq_getElem (by omega)] at h1; exact Option.some.inj h1
    have e2 : hand[k + 1] = x := by
      rw [List.getElem?_eq_getElem hk1] at h2; exact Option.some.inj h2
    have := (List.Nodup.getElem_inj_iff hnodup).mp (e1.trans e2.symm)
    omega

/-- Witness of C15: fourteen different tiles, in tile order and reversed. -/
theorem canWin_all_distinct_witness :
    canWin distinctHand = some false ∧ canWin distinctHand.reverse = some false :=
  ⟨canWin_all_distinct distinctHand (by decide) (by decide),
    canWin_all_distinct distinctHand.reverse (by decide) (by decide)⟩

/-- C18: `canWin` is sound whatever the order of its input. If it returns
true on a list of legal tiles, sorted or not, the list has 14 tiles and splits
into one pair of identical tiles and four melds. -/
theorem canWin_sound_any_order (hand : List MahjongTile) (hlegal : ∀ t ∈ hand, t.legal)
    (h : canWin hand = some true) : hand.length = 14 ∧ Complete hand :=
  canWin_sound hlegal h

/-- Witness of C18: the sample hand in decreasing order, which is not in tile
order, is accepted and is complete. -/
theorem canWin_sound_any_order_witness :
    ¬ TileSorted winningHand.reverse ∧ Complete winningHand.reverse :=
  ⟨by decide, (canWin_sound_any_order winningHand.reverse (by decide) (by decide)).2⟩

/-! ## Invariants of dealing -/

theorem dealOne_concat (g : MahjongGame) (p : Nat) (front : List MahjongTile)
    (tile : MahjongTile) (pl : Player) (hw : g.wall = front ++ [tile])
    (hp : g.players[p]? = some pl) :
    dealOne g p =
      some { g with players := g.players.set p (pl.drawTile tile), wall := front } := by
  unfold dealOne
  rw [hw, hp]
  simp

theorem dealRound_eq (g : MahjongGame) {p0 p1 p2 p3 : Player} {w : List MahjongTile}
    {t0 t1 t2 t3 : MahjongTile} (hp : g.players = [p0, p1, p2, p3])
    (hw : g.wall = w ++ [t3, t2, t1, t0]) :
    (List.range 4).foldlM dealOne g =
      some { g with
        players := [p0.drawTile t0, p1.drawTile t1, p2.drawTile t2, p3.drawTile t3],
        wall := w } := by
  have hr : List.range 4 = [0, 1, 2, 3] := rfl
  have h0 := dealOne_concat g 0 (w ++ [t3, t2, t1]) t0 p0
    (by rw [hw]; simp) (by rw [hp]; rfl)
  have h1 := dealOne_concat
    { g with players := [p0.drawTile t0, p1, p2, p3], wall := w ++ [t3, t2, t1] }
    1 (w ++ [t3, t2]) t1 p1 (by simp) rfl
  have h2 := dealOne_concat
    { g with players := [p0.drawTile t0, p1.drawTile t1, p2, p3], wall := w ++ [t3, t2] }
    2 (w ++ [t3]) t2 p2 (by simp) rfl
  have h3 := dealOne_concat
    { g with
      players := [p0.drawTile t0, p1.drawTile t1, p2.drawTile t2, p3], wall := w ++ [t3] }
    3 w t3 p3 rfl rfl
  rw [hp] at h0
  simp only [List.set_cons_zero, List.set_cons_succ] at h0 h1 h2 h3
  rw [hr, List.foldlM_cons, h0]
  simp only [Option.bind_eq_bind, Option.some_bind]
  rw [List.foldlM_cons, h1]
  simp only [Option.bind_eq_bind, Option.some_bind]
  rw [List.foldlM_cons, h2]
  simp only [Option.bind_eq_bind, Option.some_bind]
  rw [List.foldlM_cons, h3]
  rfl

theorem exists_four_concat {l : List MahjongTile} (h : 4 ≤ l.length) :
    ∃ w t3 t2 t1 t0, l = w ++ [t3, t2, t1, t0] := by
  obtain ⟨l1, t0, rfl⟩ := exists_concat_of_ne_nil (l := l) (by intro e; rw [e] at h; simp at h)
  simp only [List.length_append, List.length_singleton] at h
  obtain ⟨l2, t1, rfl⟩ := exists_concat_of_ne_nil (l := l1) (by intro e; rw [e] at h; simp at h)
  simp only [List.length_append, List.length_singleton] at h
  obtain ⟨l3, t2, rfl⟩ := exists_concat_of_ne_nil (l := l2) (by intro e; rw [e] at h; simp at h)
  simp only [List.length_append, List.length_singleton] at h
  obtain ⟨w, t3, rfl⟩ := exists_concat_of_ne_nil (l := l3) (by intro e; rw [e] at h; simp at h)
  exact ⟨w, t3, t2, t1, t0, by simp⟩

theorem exists_four_players {l : List Player} (h : l.length = 4) :
    ∃ p0 p1 p2 p3, l = [p0, p1, p2, p3] := by
  match l, h with
  | [p0, p1, p2, p3], _ => exact ⟨p0, p1, p2, p3, rfl⟩

theorem Player.drawTile_hand_length (p : Player) (t : MahjongTile) :
    (p.drawTile t).hand.length = p.hand.length + 1 := by
  rw [(p.drawTile_hand_perm t).length_eq, List.length_cons]

theorem Player.drawTile_hand_sorted (p : Player) (t : MahjongTile) :
    TileSorted (p.drawTile t).hand :=
  sortTiles_sorted _

theorem Player.drawTile_hand_count (p : Player) (t a : MahjongTile) :
    (p.drawTile t).hand.count a = [t].count a + p.hand.count a := by
  rw [(p.drawTile_hand_perm t).count_eq, ← List.singleton_append, List.count_append]

theorem Player.drawTile_discarded (p : Player) (t : MahjongTile) :
    (p.drawTile t).discarded = p.discarded :=
  rfl

theorem dealRound_spec (g : MahjongGame) (hp : g.players.length = 4)
    (hw : 4 ≤ g.wall.length) :
    ∃ g', (List.range 4).foldlM dealOne g = some g' ∧ g'.wall.length + 4 = g.wall.length ∧
      g'.players.length = 4 ∧ g'.currentPlayer = g.currentPlayer ∧
      g'.lastDrawnTile = g.lastDrawnTile ∧
      (∀ n, (∀ p ∈ g.players, TileSorted p.hand ∧ p.hand.length = n ∧ p.discarded = []) →
        ∀ p ∈ g'.players, TileSorted p.hand ∧ p.hand.length = n + 1 ∧ p.discarded = []) ∧
      g'.allTiles.Perm g.allTiles := by
  obtain ⟨p0, p1, p2, p3, hpl⟩ := exists_four_players hp
  obtain ⟨w, t3, t2, t1, t0, hwall⟩ := exists_four_concat hw
  refine ⟨_, dealRound_eq g hpl hwall, ?_, rfl, rfl, rfl, ?_, ?_⟩
  · rw [hwall]; simp
  · intro n hn p hmem
    rw [hpl] at hn
    simp only [List.mem_cons, List.mem_singleton, List.not_mem_nil, or_false] at hmem
    rcases hmem with rfl | rfl | rfl | rfl
    · exact ⟨Player.drawTile_hand_sorted _ _,
        by rw [Player.drawTile_hand_length, (hn p0 (by simp)).2.1], (hn p0 (by simp)).2.2⟩
    · exact ⟨Player.drawTile_hand_sorted _ _,
        by rw [Player.drawTile_hand_length, (hn p1 (by simp)).2.1], (hn p1 (by simp)).2.2⟩
    · exact ⟨Player.drawTile_hand_sorted _ _,
        by rw [Player.drawTile_hand_length, (hn p2 (by simp)).2.1], (hn p2 (by simp)).2.2⟩
    · exact ⟨Player.drawTile_hand_sorted _ _,
        by rw [Player.drawTile_hand_length, (hn p3 (by simp)).2.1], (hn p3 (by simp)).2.2⟩
  · rw [List.perm_iff_count]
    intro a
    have e3 : List.count a [t3, t2, t1, t0] =
        [t3].count a + [t2].count a + [t1].count a + [t0].count a := by
      rw [show [t3, t2, t1, t0] = [t3] ++ [t2] ++ [t1] ++ [t0] from rfl]
      simp only [List.count_append]
    simp only [MahjongGame.allTiles, hpl, hwall, List.map_cons, List.map_nil,
      List.flatten_cons, List.flatten_nil, List.count_append, List.append_nil,
      Player.drawTile_hand_count, Player.drawTile_discarded, e3, List.count_nil]
    omega

theorem dealTiles_invariant (g : MahjongGame) (m : Nat) (hp : g.players.length = 4)
    (hw : g.wall.length = 52 + m)
    (hempty : ∀ p ∈ g.players, p.hand = [] ∧ p.discarded = []) :
    ∃ g', dealTiles g = some g' ∧ g'.wall.length = m ∧ g'.players.length = 4 ∧
      g'.currentPlayer = g.currentPlayer ∧ g'.lastDrawnTile = g.lastDrawnTile ∧
      (∀ p ∈ g'.players, TileSorted p.hand ∧ p.hand.length = 13 ∧ p.discarded = []) ∧
      g'.allTiles.Perm g.allTiles := by
  have outer := foldlM_invariant (fun g1 (_ : Nat) => (List.range 4).foldlM dealOne g1)
    (fun _ => True)
    (fun k g' => g'.players.length = 4 ∧ g'.wall.length = 4 * k + m ∧
      g'.currentPlayer = g.currentPlayer ∧ g'.lastDrawnTile = g.lastDrawnTile ∧
      (∀ p ∈ g'.players, TileSorted p.hand ∧ p.hand.length = 13 - k ∧ p.discarded = []) ∧
      g'.allTiles.Perm g.allTiles ∧ k ≤ 13)
    (by
      intro k b _ _ hb
      obtain ⟨h1, h2, h3, h4, h5, h6, h7⟩ := hb
      obtain ⟨b', e, r1, r2, r3, r4, r5, r6⟩ := dealRound_spec b h1 (by omega)
      refine ⟨b', e, r2, by omega, r3.trans h3, r4.trans h4, ?_, r6.trans h6, by omega⟩
      intro p hmem
      have := r5 (13 - (k + 1)) h5 p hmem
      exact ⟨this.1, by rw [this.2.1]; omega, this.2.2⟩)
    (List.range 13) 0 g (fun _ _ => trivial)
    (by
      refine ⟨hp, ?_, rfl, rfl, ?_, List.Perm.refl _, ?_⟩
      · rw [List.length_range]; omega
      · intro p hmem
        rw [List.length_range]
        obtain ⟨e1, e2⟩ := hempty p hmem
        rw [e1]
        exact ⟨List.sorted_nil, rfl, e2⟩
      · rw [List.length_range])
  obtain ⟨g', h1, h2, h3, h4, h5, h6, h7, _⟩ := outer
  exact ⟨g', h1, by omega, h2, h4, h5, h6, h7⟩

theorem MahjongGame.construct_invariant (shuffle : List MahjongTile → List MahjongTile)
    (hshuffle : (shuffle (initializeTiles [])).Perm (initializeTiles [])) :
    ∃ g0, MahjongGame.construct shuffle = some g0 ∧ g0.wall.length = 84 ∧
      g0.handsReady 13 ∧ g0.currentPlayer = 0 ∧ g0.lastDrawnTile = invalidTile ∧
      (∀ p ∈ g0.players, p.discarded = []) ∧
      g0.allTiles.Perm (initializeTiles []) := by
  unfold MahjongGame.construct
  obtain ⟨g0, h1, h2, h3, h4, h5, h6, h7⟩ := dealTiles_invariant
    { wall := shuffle (initializeTiles []),
      players := (List.range 4).foldl
        (fun ps (i : Nat) =>
          ps ++ [({ id := (i : Int) + 1, hand := [], discarded := [] } : Player)])
        [],
      currentPlayer := 0, lastDrawnTile := invalidTile }
    84 rfl
    (by simp only [hshuffle.length_eq, initializeTiles_length])
    (by
      intro p hp
      have hp' : p ∈ ([⟨1, [], []⟩, ⟨2, [], []⟩, ⟨3, [], []⟩, ⟨4, [], []⟩] : List Player) :=
        hp
      simp only [List.mem_cons, List.mem_singleton, List.not_mem_nil, or_false] at hp'
      rcases hp' with rfl | rfl | rfl | rfl <;> exact ⟨rfl, rfl⟩)
  refine ⟨g0, h1, h2,
    ⟨h3, by rw [h4]; exact Nat.zero_lt_succ 3, fun p hp => ⟨(h6 p hp).1, (h6 p hp).2.1⟩⟩,
    h4, h5, fun p hp => (h6 p hp).2.2, h7.trans ?_⟩
  simp only [MahjongGame.allTiles]
  have : (List.range 4).foldl
        (fun ps (i : Nat) =>
          ps ++ [({ id := (i : Int) + 1, hand := [], discarded := [] } : Player)])
        [] = [⟨1, [], []⟩, ⟨2, [], []⟩, ⟨3, [], []⟩, ⟨4, [], []⟩] := by decide
  rw [this]
  simpa using hshuffle

/-! ## Invariants of a turn -/

theorem canWin_of_length_ne {hand : List MahjongTile} (h : hand.length ≠ 14) :
    canWin hand = some false := by
  unfold canWin
  rw [if_pos h]

theorem findIndex_getElem? {hand : List MahjongTile} {tile : MahjongTile} (h : tile ∈ hand) :
    hand[findIndex hand tile]? = some tile := by
  have hlt := findIndex_lt h
  rw [List.getElem?_eq_getElem hlt]
  have hlt' : hand.findIdx (fun t => t.eq tile) < hand.length := hlt
  have hp : (hand[findIndex hand tile]).eq tile = true :=
    @List.findIdx_getElem MahjongTile (fun t => t.eq tile) hand hlt'
  rw [MahjongTile.eq_iff.mp hp]

theorem TileSorted.eraseIdx {l : List MahjongTile} (h : TileSorted l) (i : Nat) :
    TileSorted (l.eraseIdx i) :=
  List.Pairwise.sublist (List.eraseIdx_sublist l i) h

theorem perm_cons_eraseIdx :
    ∀ (l : List MahjongTile) (i : Nat) (t : MahjongTile), l[i]? = some t →
      l.Perm (t :: l.eraseIdx i) := by
  intro l
  induction l with
  | nil => intro i t h; simp at h
  | cons a l ih =>
    intro i t h
    cases i with
    | zero =>
      simp only [List.getElem?_cons_zero, Option.some.injEq] at h
      subst h
      exact List.Perm.refl _
    | succ i =>
      simp only [List.getElem?_cons_succ] at h
      rw [List.eraseIdx_cons_succ]
      exact ((ih i t h).cons a).trans (List.Perm.swap t a _)

theorem MahjongGame.discardTile_eq (g : MahjongGame) (p : Player) (index : Nat)
    (t : MahjongTile) (b : Bool) (hp : g.players[g.currentPlayer]? = some p)
    (ht : p.hand[index]? = some t) (hb : canWin (p.hand.eraseIdx index) = some b) :
    g.discardTile index = some (if b = true
      then .exited
        { g with
          players :=
            g.players.set g.currentPlayer ⟨p.id, p.hand.eraseIdx index, p.discarded ++ [t]⟩ }
      else .returned
        { g with
          players :=
            g.players.set g.currentPlayer ⟨p.id, p.hand.eraseIdx index, p.discarded ++ [t]⟩,
          currentPlayer := (g.currentPlayer + 1) % 4 }) := by
  have hcur : g.currentPlayer < g.players.length := by
    by_contra hc
    rw [List.getElem?_eq_none (by omega)] at hp
    cases hp
  unfold MahjongGame.discardTile Player.discardTile
  rw [hp]
  simp only [Option.bind_eq_bind, Option.some_bind, ht, Option.pure_def,
    List.getElem?_set_self hcur, hb]
  cases b <;> rfl

theorem MahjongGame.discardTile_some (g : MahjongGame) (index : Nat) (res : DiscardResult)
    (h : g.discardTile index = some res) :
    ∃ p t, g.players[g.currentPlayer]? = some p ∧ p.hand[index]? = some t := by
  cases hp : g.players[g.currentPlayer]? with
  | none => simp [MahjongGame.discardTile, hp] at h
  | some p =>
    cases ht : p.hand[index]? with
    | none => simp [MahjongGame.discardTile, Player.discardTile, hp, ht] at h
    | some t => exact ⟨p, t, rfl, ht⟩

theorem MahjongGame.drawTile_some (g g1 : MahjongGame) (h : g.drawTile = some g1) :
    g1 = g ∨ ∃ front tile p, g.wall = front ++ [tile] ∧
      g.players[g.currentPlayer]? = some p ∧
      g1 = { wall := front, players := g.players.set g.currentPlayer (p.drawTile tile),
             currentPlayer := g.currentPlayer, lastDrawnTile := tile } := by
  by_cases hw : g.wall = []
  · rw [g.drawTile_nil hw] at h
    exact Or.inl (Option.some.inj h).symm
  · right
    obtain ⟨front, tile, hwall⟩ := exists_concat_of_ne_nil hw
    cases hp : g.players[g.currentPlayer]? with
    | none =>
      unfold MahjongGame.drawTile at h
      rw [hwall, hp] at h
      simp at h
    | some p =>
      rw [g.drawTile_concat hwall hp] at h
      exact ⟨front, tile, p, hwall, rfl, (Option.some.inj h).symm⟩

theorem MahjongGame.turn_of_ready (g : MahjongGame) (front : List MahjongTile)
    (tile : MahjongTile) (hr : g.handsReady 13) (hw : g.wall = front ++ [tile]) :
    ∃ pl hand14 index g1 g2, g.players[g.currentPlayer]? = some pl ∧
      hand14 = (pl.drawTile tile).hand ∧ index = findIndex hand14 tile ∧
      g1 = { wall := front, players := g.players.set g.currentPlayer (pl.drawTile tile),
             currentPlayer := g.currentPlayer, lastDrawnTile := tile } ∧
      g2 = { wall := front,
             players :=
               g.players.set g.currentPlayer
                 ⟨pl.id, hand14.eraseIdx index, pl.discarded ++ [tile]⟩,
             currentPlayer := (g.currentPlayer + 1) % 4, lastDrawnTile := tile } ∧
      g.drawTile = some g1 ∧ g1.players[g1.currentPlayer]? = some (pl.drawTile tile) ∧
      TileSorted hand14 ∧ hand14.length = 14 ∧ index < hand14.length ∧
      hand14[index]? = some tile ∧ canWin (hand14.eraseIdx index) = some false ∧
      g1.discardTile index = some (.returned g2) ∧ g.turn = some (.returned g2) ∧
      g2.handsReady 13 := by
  obtain ⟨hlen, hcur, hhands⟩ := hr
  have hcur' : g.currentPlayer < g.players.length := by omega
  have hp : g.players[g.currentPlayer]? = some g.players[g.currentPlayer] :=
    List.getElem?_eq_getElem hcur'
  have hpl := hhands _ (List.getElem_mem hcur')
  have hmem := (g.players[g.currentPlayer]).drawTile_mem tile
  have h14 : (g.players[g.currentPlayer].drawTile tile).hand.length = 14 := by
    rw [Player.drawTile_hand_length, hpl.2]
  have hidx := findIndex_lt hmem
  have hget := findIndex_getElem? hmem
  have hcw : canWin ((g.players[g.currentPlayer].drawTile tile).hand.eraseIdx
      (findIndex (g.players[g.currentPlayer].drawTile tile).hand tile)) = some false :=
    canWin_of_length_ne (by rw [List.length_eraseIdx_of_lt hidx, h14]; decide)
  have hset : (g.players.set g.currentPlayer (g.players[g.currentPlayer].drawTile tile))[
      g.currentPlayer]? = some (g.players[g.currentPlayer].drawTile tile) :=
    List.getElem?_set_self hcur'
  have hdraw := g.drawTile_concat hw hp
  have hdisc := MahjongGame.discardTile_eq
    { wall := front,
      players := g.players.set g.currentPlayer (g.players[g.currentPlayer].drawTile tile),
      currentPlayer := g.currentPlayer, lastDrawnTile := tile }
    (g.players[g.currentPlayer].drawTile tile)
    (findIndex (g.players[g.currentPlayer].drawTile tile).hand tile) tile false
    hset hget hcw
  simp only [Bool.false_eq_true, if_false, List.set_set, Player.drawTile_discarded] at hdisc
  refine ⟨g.players[g.currentPlayer], _, _, _, _, hp, rfl, rfl, rfl, rfl, hdraw, hset,
    Player.drawTile_hand_sorted _ _, h14, hidx, hget, hcw, hdisc, ?_, ?_⟩
  · unfold MahjongGame.turn
    rw [hdraw]
    simp only [Option.bind_eq_bind, Option.some_bind, hset]
    rw [if_pos (by simpa using List.ne_nil_of_mem hmem)]
    exact hdisc
  · refine ⟨by simp [hlen], Nat.mod_lt _ (by decide), ?_⟩
    intro p hpm
    rcases List.mem_or_eq_of_mem_set hpm with h | rfl
    · exact hhands p h
    · exact ⟨(Player.drawTile_hand_sorted _ _).eraseIdx _,
        by simp only [List.length_eraseIdx_of_lt hidx, h14]⟩

/-! ## Invariants along the loop of `play` -/

theorem MahjongGame.turns_ready :
    ∀ (k : Nat) (g g' : MahjongGame), g.handsReady 13 → MahjongGame.turns k g = some g' →
      g'.handsReady 13 ∧ g'.wall.length + k = g.wall.length := by
  intro k
  induction k with
  | zero =>
    intro g g' hr h
    simp only [MahjongGame.turns, Option.some.injEq] at h
    subst h
    exact ⟨hr, rfl⟩
  | succ k ih =>
    intro g g' hr h
    by_cases hnil : g.wall = []
    · simp [MahjongGame.turns, hnil] at h
    · obtain ⟨front, tile, hw⟩ := exists_concat_of_ne_nil hnil
      obtain ⟨pl, hand14, index, g1, g2, _, _, _, _, hg2, _, _, _, _, _, _, _, _, hturn, hr2⟩ :=
        g.turn_of_ready front tile hr hw
      rw [MahjongGame.turns, if_neg (by simpa using hnil), hturn] at h
      have h' : MahjongGame.turns k g2 = some g' := h
      obtain ⟨r1, r2⟩ := ih g2 g' hr2 h'
      refine ⟨r1, ?_⟩
      have : g2.wall = front := by rw [hg2]
      rw [this] at r2
      rw [hw, List.length_append, List.length_singleton]
      omega

theorem MahjongGame.turns_exists :
    ∀ (k : Nat) (g : MahjongGame), g.handsReady 13 → k ≤ g.wall.length →
      ∃ g', MahjongGame.turns k g = some g' := by
  intro k
  induction k with
  | zero => intro g _ _; exact ⟨g, rfl⟩
  | succ k ih =>
    intro g hr hk
    have hnil : g.wall ≠ [] := by intro e; rw [e] at hk; simp at hk
    obtain ⟨front, tile, hw⟩ := exists_concat_of_ne_nil hnil
    obtain ⟨pl, hand14, index, g1, g2, _, _, _, _, hg2, _, _, _, _, _, _, _, _, hturn, hr2⟩ :=
      g.turn_of_ready front tile hr hw
    have hlen : k ≤ g2.wall.length := by
      have : g2.wall = front := by rw [hg2]
      rw [this]
      rw [hw, List.length_append, List.length_singleton] at hk
      omega
    obtain ⟨g', h'⟩ := ih g2 hr2 hlen
    refine ⟨g', ?_⟩
    rw [MahjongGame.turns, if_neg (by simpa using hnil), hturn]
    exact h'

theorem MahjongGame.play_of_ready :
    ∀ (fuel : Nat) (g : MahjongGame), g.handsReady 13 → g.wall.length ≤ fuel →
      ∃ final, MahjongGame.play fuel g = some ⟨.wallExhausted, final, g.wall.length⟩ ∧
        final.wall = [] := by
  intro fuel
  induction fuel with
  | zero =>
    intro g _ hw
    have hnil : g.wall = [] := List.length_eq_zero.mp (Nat.le_zero.mp hw)
    exact ⟨g, by simp [MahjongGame.play, hnil], hnil⟩
  | succ fuel ih =>
    intro g hr hw
    by_cases hnil : g.wall = []
    · exact ⟨g, by simp [MahjongGame.play, hnil], hnil⟩
    · obtain ⟨front, tile, hwall⟩ := exists_concat_of_ne_nil hnil
      obtain ⟨pl, hand14, index, g1, g2, _, _, _, _, hg2, _, _, _, _, _, _, _, _, hturn, hr2⟩ :=
        g.turn_of_ready front tile hr hwall
      have hfront : g2.wall = front := by rw [hg2]
      have hlen : g.wall.length = front.length + 1 := by
        rw [hwall, List.length_append, List.length_singleton]
      obtain ⟨final, h1, h2⟩ := ih g2 hr2 (by rw [hfront]; omega)
      refine ⟨final, ?_, h2⟩
      rw [MahjongGame.play, if_neg (by simpa using hnil), hturn]
      simp only [Option.bind_eq_bind, Option.some_bind, h1, Option.pure_def, hfront, hlen]

/-! ## Conservation of the tiles -/

theorem count_flatten_map_set (f : Player → List MahjongTile) (a : MahjongTile) :
    ∀ (l : List Player) (i : Nat) (p p' : Player), l[i]? = some p →
      ((l.set i p').map f).flatten.count a + (f p).count a =
        ((l.map f).flatten).count a + (f p').count a := by
  intro l
  induction l with
  | nil => intro i p p' h; simp at h
  | cons q l ih =>
    intro i p p' h
    cases i with
    | zero =>
      simp only [List.getElem?_cons_zero, Option.some.injEq] at h
      subst h
      simp only [List.set_cons_zero, List.map_cons, List.flatten_cons, List.count_append]
      omega
    | succ i =>
      simp only [List.getElem?_cons_succ] at h
      have := ih i p p' h
      simp only [List.set_cons_succ, List.map_cons, List.flatten_cons, List.count_append]
      omega

theorem MahjongGame.drawTile_allTiles (g g1 : MahjongGame) (h : g.drawTile = some g1) :
    g1.allTiles.Perm g.allTiles := by
  rcases g.drawTile_some g1 h with rfl | ⟨front, tile, p, hw, hp, rfl⟩
  · exact List.Perm.refl _
  · rw [List.perm_iff_count]
    intro a
    have h1 := count_flatten_map_set Player.hand a g.players g.currentPlayer p
      (p.drawTile tile) hp
    have h2 := count_flatten_map_set Player.discarded a g.players g.currentPlayer p
      (p.drawTile tile) hp
    rw [Player.drawTile_hand_count] at h1
    rw [Player.drawTile_discarded] at h2
    simp only [MahjongGame.allTiles, hw, List.count_append]
    omega

theorem MahjongGame.discardTile_allTiles (g : MahjongGame) (index : Nat)
    (res : DiscardResult) (h : g.discardTile index = some res) :
    res.state.allTiles.Perm g.allTiles := by
  obtain ⟨p, t, hp, ht⟩ := g.discardTile_some index res h
  obtain ⟨b, hb⟩ := canWin_total (p.hand.eraseIdx index)
  rw [g.discardTile_eq p index t b hp ht hb] at h
  have hres := (Option.some.inj h).symm
  rw [List.perm_iff_count]
  intro a
  have h1 := count_flatten_map_set Player.hand a g.players g.currentPlayer p
    ⟨p.id, p.hand.eraseIdx index, p.discarded ++ [t]⟩ hp
  have h2 := count_flatten_map_set Player.discarded a g.players g.currentPlayer p
    ⟨p.id, p.hand.eraseIdx index, p.discarded ++ [t]⟩ hp
  have h3 := (perm_cons_eraseIdx p.hand index t ht).count_eq a
  rw [← List.singleton_append, List.count_append] at h3
  simp only [List.count_append] at h1 h2
  cases b <;>
    · simp only [Bool.false_eq_true, if_false, if_true] at hres
      rw [hres]
      simp only [MahjongGame.allTiles, DiscardResult.state, List.count_append]
      omega

theorem Reachable.allTiles_perm {shuffle : List MahjongTile → List MahjongTile}
    (hshuffle : (shuffle (initializeTiles [])).Perm (initializeTiles [])) {g : MahjongGame}
    (h : Reachable shuffle g) :
    g.allTiles.Perm (initializeTiles []) := by
  induction h with
  | constructed hc =>
    obtain ⟨g0, h0, _, _, _, _, _, hperm⟩ := MahjongGame.construct_invariant shuffle hshuffle
    rw [hc] at h0
    rw [Option.some.inj h0]
    exact hperm
  | drew _ hd ih => exact (MahjongGame.drawTile_allTiles _ _ hd).trans ih
  | discarded index _ hd ih => exact (MahjongGame.discardTile_allTiles _ index _ hd).trans ih


theorem MahjongGame.ready_of_turns (shuffle : List MahjongTile → List MahjongTile)
    (hshuffle : (shuffle (initializeTiles [])).Perm (initializeTiles [])) (k : Nat)
    {g : MahjongGame}
    (hreach : (MahjongGame.construct shuffle).bind (MahjongGame.turns k) = some g) :
    g.handsReady 13 ∧ g.wall.length + k = 84 := by
  obtain ⟨g0, h0, hw, hr, _⟩ := MahjongGame.construct_invariant shuffle hshuffle
  rw [h0, Option.some_bind] at hreach
  obtain ⟨r1, r2⟩ := MahjongGame.turns_ready k g0 g hr hreach
  exact ⟨r1, by omega⟩

theorem MahjongGame.turns_of_le (shuffle : List MahjongTile → List MahjongTile)
    (hshuffle : (shuffle (initializeTiles [])).Perm (initializeTiles [])) (k : Nat)
    (hk : k ≤ 84) :
    ∃ g, (MahjongGame.construct shuffle).bind (MahjongGame.turns k) = some g := by
  obtain ⟨g0, h0, hw, hr, _⟩ := MahjongGame.construct_invariant shuffle hshuffle
  obtain ⟨g, hg⟩ := MahjongGame.turns_exists k g0 hr (by omega)
  exact ⟨g, by rw [h0, Option.some_bind]; exact hg⟩

theorem unshuffled_perm : (id (initializeTiles [])).Perm (initializeTiles []) := by
  rw [id_eq]

set_option maxRecDepth 1000000 in
theorem stackedShuffle_perm :
    (stackedShuffle (initializeTiles [])).Perm (initializeTiles []) := by
  decide

/-! ## The game: further verified claims -/

/-- C16: the default discard is a legal discard of the tile just drawn. In a
state `g` that `k` iterations of the loop of `play` reach from the constructed
game, with tiles left in the wall, the draw gives the active player a hand of
14 tiles, the position found for `lastDrawnTile` is smaller than the size of
that hand and holds `lastDrawnTile`, and `discardTile` at that position
succeeds, removes that tile from the hand and appends it to the discard record
of that player. -/
theorem default_discard_legal (shuffle : List MahjongTile → List MahjongTile)
    (hshuffle : (shuffle (initializeTiles [])).Perm (initializeTiles [])) (k : Nat)
    (g : MahjongGame)
    (hreach : (MahjongGame.construct shuffle).bind (MahjongGame.turns k) = some g)
    (hw : g.wall ≠ []) :
    ∃ g1 p index res p', g.drawTile = some g1 ∧
      g1.players[g1.currentPlayer]? = some p ∧ p.hand.length = 14 ∧
      index = findIndex p.hand g1.lastDrawnTile ∧ index < p.hand.length ∧
      p.hand[index]? = some g1.lastDrawnTile ∧
      g1.discardTile index = some res ∧ g.turn = some res ∧
      res.state.players[g1.currentPlayer]? = some p' ∧
      p'.hand = p.hand.eraseIdx index ∧
      p'.discarded = p.discarded ++ [g1.lastDrawnTile] := by
  obtain ⟨hr, _⟩ := MahjongGame.ready_of_turns shuffle hshuffle k hreach
  obtain ⟨front, tile, hwall⟩ := exists_concat_of_ne_nil hw
  obtain ⟨pl, hand14, index, g1, g2, _, hh, hi, hg1, hg2, hdraw, hact, _, h14, hlt, hget,
    _, hdisc, hturn, _⟩ := g.turn_of_ready front tile hr hwall
  have hcur : g.currentPlayer < g.players.length := by
    have := hr.1; have := hr.2.1; omega
  have hlast : g1.lastDrawnTile = tile := by rw [hg1]
  have hc1 : g1.currentPlayer = g.currentPlayer := by rw [hg1]
  subst hh
  refine ⟨g1, pl.drawTile tile, index, .returned g2,
    ⟨pl.id, (pl.drawTile tile).hand.eraseIdx index, pl.discarded ++ [tile]⟩,
    hdraw, hact, h14, by rw [hlast]; exact hi, hlt, by rw [hlast]; exact hget, hdisc, hturn,
    ?_, rfl, by rw [hlast]; rfl⟩
  rw [hc1, hg2]
  exact List.getElem?_set_self hcur

/-- Witness of C16: the state after three iterations from the wall left
unshuffled; the position found is valid there. -/
theorem default_discard_legal_witness :
    ((MahjongGame.construct id).bind (MahjongGame.turns 3)).bind
        (fun g => g.drawTile.bind (fun g1 => (g1.players[g1.currentPlayer]?).map
          (fun p => decide (findIndex p.hand g1.lastDrawnTile < p.hand.length)))) =
      some true := by
  obtain ⟨g, hg⟩ := MahjongGame.turns_of_le id unshuffled_perm 3 (by decide)
  have hlen := (MahjongGame.ready_of_turns id unshuffled_perm 3 hg).2
  have hw : g.wall ≠ [] := by intro e; rw [e] at hlen; simp at hlen
  obtain ⟨g1, p, index, res, p', h1, h2, _, h4, h5, _⟩ :=
    default_discard_legal id unshuffled_perm 3 g hg hw
  rw [hg, Option.some_bind, h1, Option.some_bind, h2, Option.map_some', ← h4,
    decide_eq_true h5]

/-- C17: the hand invariant. In a state that `k` iterations of the loop of
`play` reach from the constructed game (`k = 0` is the state after the deal)
there are four players and every hand is in tile order with 13 tiles; after
the draw of the next turn the hand of the active player is in tile order with
14 tiles and the other players are as before. `Player::drawTile` leaves a
sorted hand, and `Player::discardTile` keeps a sorted hand sorted. -/
theorem hands_sorted (shuffle : List MahjongTile → List MahjongTile)
    (hshuffle : (shuffle (initializeTiles [])).Perm (initializeTiles [])) (k : Nat)
    (g : MahjongGame)
    (hreach : (MahjongGame.construct shuffle).bind (MahjongGame.turns k) = some g) :
    (g.players.length = 4 ∧ ∀ p ∈ g.players, TileSorted p.hand ∧ p.hand.length = 13) ∧
      (g.wall ≠ [] → ∃ g1 p, g.drawTile = some g1 ∧
        g1.players[g1.currentPlayer]? = some p ∧ TileSorted p.hand ∧ p.hand.length = 14 ∧
        ∀ i, i ≠ g1.currentPlayer → g1.players[i]? = g.players[i]?) ∧
      (∀ (p : Player) (t : MahjongTile), TileSorted (p.drawTile t).hand) ∧
      (∀ (p p' : Player) (index : Nat) (t : MahjongTile), TileSorted p.hand →
        p.discardTile index = some (t, p') → TileSorted p'.hand) := by
  obtain ⟨hr, _⟩ := MahjongGame.ready_of_turns shuffle hshuffle k hreach
  refine ⟨⟨hr.1, hr.2.2⟩, ?_, Player.drawTile_hand_sorted, ?_⟩
  · intro hw
    obtain ⟨front, tile, hwall⟩ := exists_concat_of_ne_nil hw
    obtain ⟨pl, hand14, index, g1, g2, _, hh, _, hg1, _, hdraw, hact, hs, h14, _⟩ :=
      g.turn_of_ready front tile hr hwall
    subst hh
    refine ⟨g1, pl.drawTile tile, hdraw, hact, hs, h14, ?_⟩
    intro i hi
    rw [hg1] at hi ⊢
    exact List.getElem?_set_ne (Ne.symm hi)
  · intro p p' index t hs h
    unfold Player.discardTile at h
    cases ht : p.hand[index]? with
    | none => rw [ht] at h; simp at h
    | some t' =>
      rw [ht] at h
      simp only [Option.bind_eq_bind, Option.some_bind, Option.pure_def, Option.some.injEq,
        Prod.mk.injEq] at h
      rw [← h.2]
      exact hs.eraseIdx index

/-- Witness of C17: after five iterations from the wall left unshuffled the
four hands have 13 tiles each. -/
theorem hands_sorted_witness :
    ((MahjongGame.construct id).bind (MahjongGame.turns 5)).map
        (fun g => g.players.map (fun p => decide (TileSorted p.hand ∧ p.hand.length = 13))) =
      some [true, true, true, true] := by
  obtain ⟨g, hg⟩ := MahjongGame.turns_of_le id unshuffled_perm 5 (by decide)
  obtain ⟨⟨h4, hall⟩, _⟩ := hands_sorted id unshuffled_perm 5 g hg
  obtain ⟨p0, p1, p2, p3, hp⟩ := exists_four_players h4
  rw [hg, Option.map_some', hp]
  rw [hp] at hall
  simp only [List.map_cons, List.map_nil,
    decide_eq_true (hall p0 (by simp)), decide_eq_true (hall p1 (by simp)),
    decide_eq_true (hall p2 (by simp)), decide_eq_true (hall p3 (by simp))]

/-- C19: in the game as coded the winning branch is never taken. From the
constructed game every iteration of the loop of `play` exists up to the 84th;
in each state so reached, once the active player has drawn, a call of
`discardTile` with any index evaluates `canWin` on the hand after the removal,
which has 13 tiles, gets false and returns; and `play` ends with the wall
exhausted after exactly 84 iterations. -/
theorem win_never_taken (shuffle : List MahjongTile → List MahjongTile)
    (hshuffle : (shuffle (initializeTiles [])).Perm (initializeTiles [])) :
    ∃ g0 final, MahjongGame.construct shuffle = some g0 ∧
      (∀ fuel, 84 ≤ fuel →
        MahjongGame.play fuel g0 = some ⟨.wallExhausted, final, 84⟩) ∧
      final.wall = [] ∧
      (∀ k, k ≤ 84 → ∃ g, MahjongGame.turns k g0 = some g) ∧
      (∀ k g, MahjongGame.turns k g0 = some g → g.wall ≠ [] →
        ∃ g1 p, g.drawTile = some g1 ∧ g1.players[g1.currentPlayer]? = some p ∧
          p.hand.length = 14 ∧
          ∀ index res, g1.discardTile index = some res →
            (p.hand.eraseIdx index).length = 13 ∧
            canWin (p.hand.eraseIdx index) = some false ∧ res.isExit = false) := by
  obtain ⟨g0, h0, hw, hr, _⟩ := MahjongGame.construct_invariant shuffle hshuffle
  obtain ⟨final, hplay, hfinal⟩ := MahjongGame.play_of_ready 84 g0 hr (by omega)
  rw [hw] at hplay
  refine ⟨g0, final, h0, fun fuel hf => MahjongGame.play_fuel_le hf hplay, hfinal,
    fun k hk => MahjongGame.turns_exists k g0 hr (by omega), ?_⟩
  intro k g hturns hne
  obtain ⟨hrg, _⟩ := MahjongGame.turns_ready k g0 g hr hturns
  obtain ⟨front, tile, hwall⟩ := exists_concat_of_ne_nil hne
  obtain ⟨pl, hand14, index, g1, g2, _, hh, _, hg1, _, hdraw, hact, _, h14, _⟩ :=
    g.turn_of_ready front tile hrg hwall
  subst hh
  refine ⟨g1, pl.drawTile tile, hdraw, hact, h14, ?_⟩
  intro i res hres
  obtain ⟨p, t, hp, ht⟩ := g1.discardTile_some i res hres
  rw [hact] at hp
  have hp' : pl.drawTile tile = p := Option.some.inj hp
  subst hp'
  have hi : i < (pl.drawTile tile).hand.length := by
    by_contra hc
    rw [List.getElem?_eq_none (by omega)] at ht
    cases ht
  have h13 : ((pl.drawTile tile).hand.eraseIdx i).length = 13 := by
    rw [List.length_eraseIdx_of_lt hi, h14]
  have hcw : canWin ((pl.drawTile tile).hand.eraseIdx i) = some false :=
    canWin_of_length_ne (by rw [h13]; decide)
  refine ⟨h13, hcw, ?_⟩
  rw [g1.discardTile_eq (pl.drawTile tile) i t false hact ht hcw] at hres
  rw [← Option.some.inj hres]
  rfl

/-- Witness of C19: with the wall in the order `stackedWall`, which hands the
first player a complete hand at the first draw, `play` still ends with the
wall exhausted after 84 iterations. -/
theorem win_never_taken_witness :
    ((MahjongGame.construct stackedShuffle).bind (MahjongGame.play 84)).map
        (fun r => (r.ending, r.turns, r.final.wall)) =
      some (.wallExhausted, 84, []) := by
  obtain ⟨g0, final, h0, hplay, hfinal, _⟩ := win_never_taken stackedShuffle stackedShuffle_perm
  rw [h0, Option.some_bind, hplay 84 (Nat.le_refl _), Option.map_some', hfinal]

/-- C20: the tiles are conserved. In every state reached from the constructed
game by calls of `drawTile` and `discardTile`, the wall, the four hands and
the four discard records together are a permutation of the 136 tiles built by
`initializeTiles`: 136 tiles, each legal tile four times. -/
theorem tiles_conserved (shuffle : List MahjongTile → List MahjongTile)
    (hshuffle : (shuffle (initializeTiles [])).Perm (initializeTiles []))
    (g : MahjongGame) (h : Reachable shuffle g) :
    g.allTiles.Perm (initializeTiles []) ∧ g.allTiles.length = 136 ∧
      ∀ t : MahjongTile, t.legal → g.allTiles.count t = 4 := by
  have hperm := h.allTiles_perm hshuffle
  refine ⟨hperm, by rw [hperm.length_eq, initializeTiles_length], ?_⟩
  intro t ht
  rw [hperm.count_eq]
  exact count_initializeTiles_of_mem t (legal_mem_initializeTiles t ht)

/-- Witness of C20: the state after the first turn of the game dealt from the
unshuffled wall still holds 136 tiles. -/
theorem tiles_conserved_witness :
    ((MahjongGame.construct id).bind MahjongGame.turn).map
        (fun res => res.state.allTiles.length) = some 136 := by
  obtain ⟨g0, h0, hw, hr, _⟩ := MahjongGame.construct_invariant id unshuffled_perm
  have hne : g0.wall ≠ [] := by intro e; rw [e] at hw; simp at hw
  obtain ⟨front, tile, hwall⟩ := exists_concat_of_ne_nil hne
  obtain ⟨pl, hand14, index, g1, g2, _, _, _, _, _, hdraw, _, _, _, _, _, _, hdisc, hturn, _⟩ :=
    g0.turn_of_ready front tile hr hwall
  have hreach : Reachable id (DiscardResult.returned g2).state :=
    Reachable.discarded index (Reachable.drew (Reachable.constructed h0) hdraw) hdisc
  have := (tiles_conserved id unshuffled_perm _ hreach).2.1
  rw [h0, Option.some_bind, hturn, Option.map_some']
  exact congrArg some this

end Mahjong
